import Mathlib

/-
Verification development for the temporal activity extraction, disambiguation
and query core of the youth-bot repository.

Embedded source files:
  * scripts/json_to_database.py : extract_facebook_id, resolve_post_id,
    extract_event_date (5 regex patterns + disambiguation), prepare_activity_data
  * database_tools.py : _today_start, _format_activity_result,
    get_past_activities, get_recent_activities, execute_database_tool

Modelling conventions:
  * Python strings are `List Char`.
  * Python `datetime` values (all in the fixed Asia/Taipei zone, which has no
    DST transitions) are a calendar `Date` plus a minute-of-day.  Sub-minute
    precision cannot change any computation the code performs on them
    (floor-day differences and minute-level formatting), see `timedeltaDays`.
  * `re` character class `\d` is modelled as ASCII digits (`Char.isDigit`) and
    `\s` as the common whitespace characters, matching the inputs this
    pipeline processes.
-/

/-- Calendar date (proleptic Gregorian), as carried by a Python `datetime`. -/
structure Date where
  year : Nat
  month : Nat
  day : Nat
deriving DecidableEq, Repr

/-- Gregorian leap-year rule, as used by Python `datetime`. -/
def isLeapYear (y : Nat) : Bool :=
  y % 4 == 0 && (y % 100 != 0 || y % 400 == 0)

/-- Number of days in a month, as enforced by the `datetime` constructor. -/
def daysInMonth (y m : Nat) : Nat :=
  if m = 2 then (if isLeapYear y then 29 else 28)
  else if m = 4 ∨ m = 6 ∨ m = 9 ∨ m = 11 then 30 else 31

/-- Model of the `datetime.datetime(year, month, day)` constructor: returns the
date when it is constructible and `none` when the constructor would raise
`ValueError` (month out of 1..12, day out of 1..days-in-month, year out of
`MINYEAR..MAXYEAR`). -/
def mkValidDate (y m d : Nat) : Option Date :=
  if 1 ≤ y ∧ y ≤ 9999 ∧ 1 ≤ m ∧ m ≤ 12 ∧ 1 ≤ d ∧ d ≤ daysInMonth y m
  then some ⟨y, m, d⟩ else none

/-- Days in the months of year `y` strictly before month `m`. -/
def daysBeforeMonth (y m : Nat) : Nat :=
  (List.range (m - 1)).foldl (fun a i => a + daysInMonth y (i + 1)) 0

/-- Day index of a date: number of days since 0001-01-01 (proleptic
Gregorian).  Differences of `toDays` values are exactly the day counts that
Python `timedelta.days` reports between the corresponding midnights. -/
def toDays (dt : Date) : Nat :=
  let y := dt.year - 1
  365 * y + y / 4 - y / 100 + y / 400 + daysBeforeMonth dt.year dt.month + (dt.day - 1)

/-- Inverse of `toDays` (civil-from-days on a 400-year era, shifted to the
0000-03-01 epoch).  Used only to realise Python datetime arithmetic
(`today ± timedelta(days=n)`) where the shifted date is later formatted. -/
def fromDays (n : Nat) : Date :=
  let z := n + 306
  let era := z / 146097
  let doe := z % 146097
  let yoe := (doe - doe / 1460 + doe / 36524 - doe / 146096) / 365
  let doy := doe - (365 * yoe + yoe / 4 - yoe / 100)
  let mp := (5 * doy + 2) / 153
  let d := doy - (153 * mp + 2) / 5 + 1
  let m := if mp < 10 then mp + 3 else mp - 9
  ⟨(if m ≤ 2 then era * 400 + yoe + 1 else era * 400 + yoe), m, d⟩

/-- A Taipei-zone `datetime`: a calendar date plus the minute of day. -/
structure DateTime where
  date : Date
  minute : Nat
deriving DecidableEq, Repr

/-- Linearisation of a datetime to minutes on the day-index scale.  Comparing
two same-zone Python datetimes compares exactly these values. -/
def DateTime.lin (t : DateTime) : Int :=
  (toDays t.date : Int) * 1440 + t.minute

/-- Model of `(a - b).days` for two Taipei datetimes: the floor of the
difference in days, exactly as Python `timedelta.days` computes it.  Sub-minute
parts of `a` and `b` cannot change this floor because both datetimes in every
use share whole-minute resolution. -/
def timedeltaDays (a b : DateTime) : Int :=
  Int.fdiv (a.lin - b.lin) 1440

/-- Midnight of a calendar date, as built by `datetime(y, m, d, tzinfo=...)`
or by `dt.replace(hour=0, minute=0, second=0, microsecond=0)`. -/
def midnightOf (d : Date) : DateTime := ⟨d, 0⟩

/-! ## Character scanning primitives (the building blocks of the regexes) -/

/-- The regex class `\s` (whitespace), restricted to the whitespace characters
occurring in this pipeline's inputs. -/
def isSpaceChar (c : Char) : Bool :=
  c = ' ' || c = '\t' || c = '\n' || c = '\r' || c = '\u000b' || c = '\u000c' ||
  c = ' ' || c = '　'

/-- Maximal digit run at the head of the string, plus the remainder.  This is
what a greedy `\d{..}` group inspects at a given position. -/
def takeDigits : List Char → List Char × List Char
  | [] => ([], [])
  | c :: cs =>
    if c.isDigit then
      let p := takeDigits cs
      (c :: p.1, p.2)
    else ([], c :: cs)

/-- Skip a maximal run of whitespace: the action of a greedy `\s*` that is
followed by a non-whitespace literal. -/
def skipSpc : List Char → List Char
  | [] => []
  | c :: cs => if isSpaceChar c then skipSpc cs else c :: cs

/-- Numeric value of a digit-character run, as `int(...)` computes it. -/
def digitsVal (ds : List Char) : Nat :=
  ds.foldl (fun a c => a * 10 + (c.toNat - 48)) 0

/-- A list whose head (if any) is not a digit. -/
def headNotDigit (s : List Char) : Prop :=
  ∀ c, s.head? = some c → c.isDigit = false

/-! ## The five date regexes of `extract_event_date`

Each `try…` function attempts a match anchored at the head of the string, the
way the regex engine attempts a match at one position: greedy digit groups take
a maximal run and the bounded repetitions `\d{i,j}` force the run length into
`i..j` (a longer run makes every backtracking alternative fail on the following
literal or lookahead).  On success it returns the captured numeric groups, the
last consumed character (for the lookbehinds of later match attempts) and the
remaining suffix. -/

/-- Pattern 1 anchored match: `(\d{2,3})\s*年\s*(\d{1,2})\s*月\s*(\d{1,2})\s*日`. -/
def tryRocFull (s : List Char) : Option ((Nat × Nat × Nat) × Char × List Char) :=
  let ys := (takeDigits s).1
  let r1 := (takeDigits s).2
  if 2 ≤ ys.length ∧ ys.length ≤ 3 then
    match skipSpc r1 with
    | c1 :: r2 =>
      if c1 = '年' then
        let ms := (takeDigits (skipSpc r2)).1
        let r3 := (takeDigits (skipSpc r2)).2
        if 1 ≤ ms.length ∧ ms.length ≤ 2 then
          match skipSpc r3 with
          | c2 :: r4 =>
            if c2 = '月' then
              let ds := (takeDigits (skipSpc r4)).1
              let r5 := (takeDigits (skipSpc r4)).2
              if 1 ≤ ds.length ∧ ds.length ≤ 2 then
                match skipSpc r5 with
                | c3 :: r6 =>
                  if c3 = '日' then
                    some ((digitsVal ys, digitsVal ms, digitsVal ds), '日', r6)
                  else none
                | [] => none
              else none
            else none
          | [] => none
        else none
      else none
    | [] => none
  else none

/-- Pattern 2 anchored match: `(?<!\d)(\d{3})/(\d{1,2})/(\d{1,2})(?!\d)`
(the lookbehind is checked by the scanner, the trailing lookahead holds
because the day group is a maximal digit run of length ≤ 2). -/
def tryRocSlash (s : List Char) : Option ((Nat × Nat × Nat) × Char × List Char) :=
  let ys := (takeDigits s).1
  let r1 := (takeDigits s).2
  if ys.length = 3 then
    match r1 with
    | c1 :: r2 =>
      if c1 = '/' then
        let ms := (takeDigits r2).1
        let r3 := (takeDigits r2).2
        if 1 ≤ ms.length ∧ ms.length ≤ 2 then
          match r3 with
          | c2 :: r4 =>
            if c2 = '/' then
              let ds := (takeDigits r4).1
              let r5 := (takeDigits r4).2
              if 1 ≤ ds.length ∧ ds.length ≤ 2 then
                some ((digitsVal ys, digitsVal ms, digitsVal ds), ds.getLastD '0', r5)
              else none
            else none
          | [] => none
        else none
      else none
    | [] => none
  else none

/-- Pattern 3 anchored match: `(?<!\d)(20\d{2})/(\d{1,2})/(\d{1,2})(?!\d)`. -/
def tryIsoSlash (s : List Char) : Option ((Nat × Nat × Nat) × Char × List Char) :=
  let ys := (takeDigits s).1
  let r1 := (takeDigits s).2
  if ys.length = 4 ∧ ys.take 2 = ['2', '0'] then
    match r1 with
    | c1 :: r2 =>
      if c1 = '/' then
        let ms := (takeDigits r2).1
        let r3 := (takeDigits r2).2
        if 1 ≤ ms.length ∧ ms.length ≤ 2 then
          match r3 with
          | c2 :: r4 =>
            if c2 = '/' then
              let ds := (takeDigits r4).1
              let r5 := (takeDigits r4).2
              if 1 ≤ ds.length ∧ ds.length ≤ 2 then
                some ((digitsVal ys, digitsVal ms, digitsVal ds), ds.getLastD '0', r5)
              else none
            else none
          | [] => none
        else none
      else none
    | [] => none
  else none

/-- Pattern 4 anchored match: `(?<!\d)(?<!年)(\d{1,2})\s*月\s*(\d{1,2})\s*日`
(lookbehinds checked by the scanner). -/
def tryBareMD (s : List Char) : Option ((Nat × Nat) × Char × List Char) :=
  let ms := (takeDigits s).1
  let r1 := (takeDigits s).2
  if 1 ≤ ms.length ∧ ms.length ≤ 2 then
    match skipSpc r1 with
    | c1 :: r2 =>
      if c1 = '月' then
        let ds := (takeDigits (skipSpc r2)).1
        let r3 := (takeDigits (skipSpc r2)).2
        if 1 ≤ ds.length ∧ ds.length ≤ 2 then
          match skipSpc r3 with
          | c2 :: r4 =>
            if c2 = '日' then some ((digitsVal ms, digitsVal ds), '日', r4) else none
          | [] => none
        else none
      else none
    | [] => none
  else none

/-- Opening parenthesis class `[\(（]` of pattern 5. -/
def isOpenParen (c : Char) : Bool := c = '(' || c = '（'

/-- Weekday class `[一二三四五六日]` of pattern 5. -/
def isWeekdayChar (c : Char) : Bool :=
  c = '一' || c = '二' || c = '三' || c = '四' || c = '五' || c = '六' || c = '日'

/-- Closing parenthesis class `[\)）]` of pattern 5. -/
def isCloseParen (c : Char) : Bool := c = ')' || c = '）'

/-- Pattern 5 anchored match: `(?<!\d)(\d{1,2})/(\d{1,2})\s*[\(（][一二三四五六日][\)）]`
(lookbehind checked by the scanner). -/
def tryMDWeek (s : List Char) : Option ((Nat × Nat) × Char × List Char) :=
  let ms := (takeDigits s).1
  let r1 := (takeDigits s).2
  if 1 ≤ ms.length ∧ ms.length ≤ 2 then
    match r1 with
    | c1 :: r2 =>
      if c1 = '/' then
        let ds := (takeDigits r2).1
        let r3 := (takeDigits r2).2
        if 1 ≤ ds.length ∧ ds.length ≤ 2 then
          match skipSpc r3 with
          | po :: w :: pc :: r4 =>
            if isOpenParen po ∧ isWeekdayChar w ∧ isCloseParen pc then
              some ((digitsVal ms, digitsVal ds), pc, r4)
            else none
          | _ => none
        else none
      else none
    | [] => none
  else none

/-- One `re.finditer` loop: walk the text left to right; wherever the
lookbehind admits a match attempt and the anchored matcher succeeds, emit
the captured groups and continue after the match (non-overlapping), else
advance one character.  `prev` is the character just before the current
position.  The fuel argument is called with the text length, which bounds the
number of steps since every emitted match consumes at least one character. -/
def scanGen {G : Type} (lb : Option Char → Bool)
    (tryAt : List Char → Option (G × Char × List Char)) :
    Nat → List Char → Option Char → List G
  | 0, _, _ => []
  | _ + 1, [], _ => []
  | fuel + 1, c :: cs, prev =>
    if lb prev then
      match tryAt (c :: cs) with
      | some (g, lastc, rest) => g :: scanGen lb tryAt fuel rest (some lastc)
      | none => scanGen lb tryAt fuel cs (some c)
    else scanGen lb tryAt fuel cs (some c)

/-- Lookbehind `(?<!\d)` of patterns 2, 3 and 5. -/
def lbNotDigit (p : Option Char) : Bool :=
  match p with
  | some c => !c.isDigit
  | none => true

/-- Lookbehind `(?<!\d)(?<!年)` of pattern 4. -/
def lbBareMD (p : Option Char) : Bool :=
  match p with
  | some c => !c.isDigit && !(c = '年')
  | none => true

/-- `re.finditer` for pattern 1 (no lookbehind), from a given left context. -/
def scanRocFullFrom (s : List Char) (p : Option Char) : List (Nat × Nat × Nat) :=
  scanGen (fun _ => true) tryRocFull s.length s p

/-- All pattern 1 matches of a text. -/
def scanRocFull (s : List Char) : List (Nat × Nat × Nat) := scanRocFullFrom s none

/-- `re.finditer` for pattern 2. -/
def scanRocSlash (s : List Char) : List (Nat × Nat × Nat) :=
  scanGen lbNotDigit tryRocSlash s.length s none

/-- `re.finditer` for pattern 3, from a given left context. -/
def scanIsoSlashFrom (s : List Char) (p : Option Char) : List (Nat × Nat × Nat) :=
  scanGen lbNotDigit tryIsoSlash s.length s p

/-- All pattern 3 matches of a text. -/
def scanIsoSlash (s : List Char) : List (Nat × Nat × Nat) := scanIsoSlashFrom s none

/-- `re.finditer` for pattern 4. -/
def scanBareMD (s : List Char) : List (Nat × Nat) :=
  scanGen lbBareMD tryBareMD s.length s none

/-- `re.finditer` for pattern 5. -/
def scanMDWeek (s : List Char) : List (Nat × Nat) :=
  scanGen lbNotDigit tryMDWeek s.length s none

/-! ## Candidate assembly and disambiguation of `extract_event_date` -/

/-- Pattern 1 candidate: `year = int(g1) + 1911` guarded by
`2020 <= year <= 2030 and 1 <= month <= 12 and 1 <= day <= 31`, then the
`datetime` constructor inside `try/except` (a raising constructor drops the
candidate). -/
def candRocFull (g : Nat × Nat × Nat) : Option Date :=
  if 2020 ≤ g.1 + 1911 ∧ g.1 + 1911 ≤ 2030 ∧ 1 ≤ g.2.1 ∧ g.2.1 ≤ 12 ∧
      1 ≤ g.2.2 ∧ g.2.2 ≤ 31 then
    mkValidDate (g.1 + 1911) g.2.1 g.2.2
  else none

/-- Pattern 2 candidate: `100 <= roc_year <= 200`, then `year = roc + 1911`
and the month/day range guard, then the guarded constructor. -/
def candRocSlash (g : Nat × Nat × Nat) : Option Date :=
  if 100 ≤ g.1 ∧ g.1 ≤ 200 then
    if 1 ≤ g.2.1 ∧ g.2.1 ≤ 12 ∧ 1 ≤ g.2.2 ∧ g.2.2 ≤ 31 then
      mkValidDate (g.1 + 1911) g.2.1 g.2.2
    else none
  else none

/-- Pattern 3 candidate: `2020 <= year <= 2030` plus the month/day range
guard, then the guarded constructor. -/
def candIso (g : Nat × Nat × Nat) : Option Date :=
  if 2020 ≤ g.1 ∧ g.1 ≤ 2030 ∧ 1 ≤ g.2.1 ∧ g.2.1 ≤ 12 ∧ 1 ≤ g.2.2 ∧ g.2.2 ≤ 31 then
    mkValidDate g.1 g.2.1 g.2.2
  else none

/-- Shared candidate construction of yearless patterns 4 and 5:
```
dt = datetime(ref_year, month, day, tzinfo=TAIPEI_TZ)
if publish_date and (publish_date - dt).days > 60:
    dt = datetime(ref_year + 1, month, day, tzinfo=TAIPEI_TZ)
candidates.append(dt)
```
inside `try/except (ValueError, OverflowError)`: when either constructor
raises, no candidate is appended. -/
def resolveYearless (refYear : Nat) (publish : Option DateTime) (g : Nat × Nat) :
    Option Date :=
  if 1 ≤ g.1 ∧ g.1 ≤ 12 ∧ 1 ≤ g.2 ∧ g.2 ≤ 31 then
    (mkValidDate refYear g.1 g.2).bind fun dt =>
      match publish with
      | some pub =>
        if timedeltaDays pub (midnightOf dt) > 60 then mkValidDate (refYear + 1) g.1 g.2
        else some dt
      | none => some dt
  else none

/-- The full candidate list that `extract_event_date` accumulates over its five
`finditer` loops.  `nowYear` stands for `datetime.now(TAIPEI_TZ).year`, which
the code uses as `ref_year` only when no `publish_date` anchor is given. -/
def extractCandidates (content : List Char) (publish : Option DateTime)
    (nowYear : Nat) : List Date :=
  let refYear := match publish with
    | some p => p.date.year
    | none => nowYear
  (scanRocFull content).filterMap candRocFull
    ++ (scanRocSlash content).filterMap candRocSlash
    ++ (scanIsoSlash content).filterMap candIso
    ++ (scanBareMD content).filterMap (resolveYearless refYear publish)
    ++ (scanMDWeek content).filterMap (resolveYearless refYear publish)

/-- Python `min` over a list of midnight datetimes (ordering midnight
datetimes in one timezone is ordering their calendar dates). -/
def listMinD : List Date → Option Date
  | [] => none
  | c :: cs =>
    match listMinD cs with
    | none => some c
    | some m => if toDays c ≤ toDays m then some c else some m

/-- The disambiguation tail of `extract_event_date`:
```
if not candidates: return None
candidates = list(set(candidates))
if publish_date:
    pub_date_naive = publish_date.replace(hour=0, minute=0, second=0, microsecond=0)
    future_dates = [d for d in candidates if d >= pub_date_naive]
    if future_dates: return min(future_dates)
return min(candidates)
```
A candidate (midnight) is `>=` the anchor's midnight exactly when its day
index is `>=` the anchor date's day index. -/
def selectEventDate (cands : List Date) (publish : Option DateTime) : Option Date :=
  if cands.isEmpty then none
  else
    let cs := cands.dedup
    match publish with
    | some pub =>
      match listMinD (cs.filter (fun dt => toDays pub.date ≤ toDays dt)) with
      | some m => some m
      | none => listMinD cs
    | none => listMinD cs

/-- `extract_event_date(content, publish_date)` from
`scripts/json_to_database.py`: `None` on falsy content, otherwise candidate
extraction followed by disambiguation (`nowYear` models the impure
`datetime.now(TAIPEI_TZ).year` read). -/
def extract_event_date (content : List Char) (publish : Option DateTime)
    (nowYear : Nat) : Option Date :=
  if content.isEmpty then none
  else selectEventDate (extractCandidates content publish nowYear) publish

/-! ## Query layer: `database_tools.py` -/

/-- Decimal digit characters of a natural number, zero-padded on the left to
`w` places, as `strftime`'s `%Y` / `%m` / `%d` / `%H` / `%M` pad. -/
def padNum (w n : Nat) : List Char :=
  let s := Nat.toDigits 10 n
  List.replicate (w - s.length) '0' ++ s

/-- `strftime("%Y/%m/%d %H:%M")` on a Taipei datetime. -/
def formatDT (t : DateTime) : List Char :=
  padNum 4 t.date.year ++ '/' :: (padNum 2 t.date.month ++ '/' :: (padNum 2 t.date.day ++
    ' ' :: (padNum 2 (t.minute / 60) ++ ':' :: padNum 2 (t.minute % 60))))

/-- `strftime("%Y/%m/%d")` on a calendar date. -/
def formatDate (d : Date) : List Char :=
  padNum 4 d.year ++ '/' :: (padNum 2 d.month ++ '/' :: padNum 2 d.day)

/-- A row of `fb_activities` as selected by both query operations:
`(source, title, content, publish_date, event_date, url, tags)`.  `tags`
carries the parsed JSON list (`json.loads` of the stored serialised string;
`none` for a NULL column). -/
structure DBRow where
  source : List Char
  title : List Char
  content : Option (List Char)
  publish_date : Option DateTime
  event_date : Option DateTime
  url : Option (List Char)
  tags : Option (List (List Char))
deriving DecidableEq, Repr

/-- `COALESCE(event_date, publish_date)` in the SQL, and identically
`row[4] if row[4] else row[3]` in `_format_activity_result` (datetime objects
are always truthy). -/
def effDate (r : DBRow) : Option DateTime :=
  match r.event_date with
  | some e => some e
  | none => r.publish_date

/-- Sort key realising `ORDER BY COALESCE(event_date, publish_date)`; rows
with no effective date never reach the ordering (they fail the WHERE clause). -/
def effLin (r : DBRow) : Int :=
  match effDate r with
  | some e => e.lin
  | none => 0

/-- One formatted entry of the `activities` array built by
`_format_activity_result`. -/
structure ActivityOut where
  source : List Char
  title : List Char
  content : Option (List Char)
  publish_date : Option (List Char)
  url : Option (List Char)
  tags : List (List Char)
deriving DecidableEq, Repr

/-- `_format_activity_result(row)`: effective date preferred over the publish
date, content truncated to a 500-character preview with an ellipsis appended
when longer than 500 characters. -/
def formatActivityResult (r : DBRow) : ActivityOut :=
  { source := r.source
    title := r.title
    content :=
      match r.content with
      | some s => if s.length > 500 then some (s.take 500 ++ "...".data) else some s
      | none => none
    publish_date := (effDate r).map formatDT
    url := r.url
    tags := r.tags.getD [] }

/-- `_today_start()`: today's midnight in the Taipei zone, from the current
Taipei time `now`. -/
def todayStart (now : DateTime) : DateTime := ⟨now.date, 0⟩

/-- The WHERE clause of `get_past_activities`:
`COALESCE(...) < :today_start AND COALESCE(...) >= :start_date` with
`start_date = today - timedelta(days=days_back)` (a NULL effective date
satisfies neither comparison). -/
def inPastWindow (today : DateTime) (daysBack : Nat) (r : DBRow) : Bool :=
  match effDate r with
  | some e => e.lin < today.lin && today.lin - 1440 * daysBack ≤ e.lin
  | none => false

/-- The WHERE clause of `get_recent_activities`:
`COALESCE(...) >= :today_start AND COALESCE(...) <= :end_date` with
`end_date = today + timedelta(days=days_ahead)`. -/
def inRecentWindow (today : DateTime) (daysAhead : Nat) (r : DBRow) : Bool :=
  match effDate r with
  | some e => today.lin ≤ e.lin && e.lin ≤ today.lin + 1440 * daysAhead
  | none => false

/-- The comparator realising `ORDER BY COALESCE(...) DESC`. -/
def pastLe (a b : DBRow) : Bool := effLin b ≤ effLin a

/-- The comparator realising `ORDER BY COALESCE(...) ASC`. -/
def recentLe (a b : DBRow) : Bool := effLin a ≤ effLin b

/-- Rows delivered by the past query: WHERE filter, `ORDER BY ... DESC`,
`LIMIT :limit`. -/
def pastSelection (rows : List DBRow) (today : DateTime) (daysBack lim : Nat) :
    List DBRow :=
  ((rows.filter (inPastWindow today daysBack)).mergeSort pastLe).take lim

/-- Rows delivered by the recent query: WHERE filter, `ORDER BY ... ASC`,
`LIMIT :limit`. -/
def recentSelection (rows : List DBRow) (today : DateTime) (daysAhead lim : Nat) :
    List DBRow :=
  ((rows.filter (inRecentWindow today daysAhead)).mergeSort recentLe).take lim

/-- Date arithmetic `today ± timedelta(days=n)` for the echoed window bounds
(Taipei has a fixed UTC offset, so timedelta arithmetic shifts the calendar
part only). -/
def dateAddDays (d : Date) (n : Int) : Date :=
  fromDays ((toDays d : Int) + n).toNat

def qtPast : List Char := "past_activities".data

def qtRecent : List Char := "recent_activities".data

/-- The `description` string of the past query's `time_range`. -/
def descrPast (fromS toS : List Char) (daysBack : Nat) : List Char :=
  fromS ++ " 到 ".data ++ toS ++ "（過去 ".data ++ Nat.toDigits 10 daysBack ++ " 天）".data

/-- The `description` string of the recent query's `time_range`. -/
def descrRecent (fromS toS : List Char) (daysAhead : Nat) : List Char :=
  fromS ++ " 到 ".data ++ toS ++ "（未來 ".data ++ Nat.toDigits 10 daysAhead ++ " 天）".data

/-- The uniform envelope dictionary returned by the two tool operations and by
`execute_database_tool`.  Fields absent from a given Python dict are `none`. -/
structure ToolResult where
  success : Bool
  query_type : Option (List Char) := none
  timeRangeFrom : Option (List Char) := none
  timeRangeTo : Option (List Char) := none
  timeRangeDescr : Option (List Char) := none
  total_count : Option Nat := none
  activities : Option (List ActivityOut) := none
  error : Option (List Char) := none
  function_name : Option (List Char) := none
deriving Repr

/-- `get_past_activities(days_back, limit)`.  The `db` argument is the outcome
of the storage calls inside the `try` block: `.ok rows` when the query
returns, `.error e` when anything in the block raises (the `except` branch
then builds the failure dict from `str(e)`). -/
def get_past_activities (db : Except (List Char) (List DBRow)) (now : DateTime)
    (daysBack lim : Nat) : ToolResult :=
  match db with
  | .error e => { success := false, error := some e, query_type := some qtPast }
  | .ok rows =>
    let today := todayStart now
    let startD := dateAddDays today.date (-(daysBack : Int))
    let acts := (pastSelection rows today daysBack lim).map formatActivityResult
    { success := true
      query_type := some qtPast
      timeRangeFrom := some (formatDate startD)
      timeRangeTo := some (formatDate today.date)
      timeRangeDescr := some (descrPast (formatDate startD) (formatDate today.date) daysBack)
      total_count := some acts.length
      activities := some acts }

/-- `get_recent_activities(days_ahead, limit)`, same conventions. -/
def get_recent_activities (db : Except (List Char) (List DBRow)) (now : DateTime)
    (daysAhead lim : Nat) : ToolResult :=
  match db with
  | .error e => { success := false, error := some e, query_type := some qtRecent }
  | .ok rows =>
    let today := todayStart now
    let endD := dateAddDays today.date (daysAhead : Int)
    let acts := (recentSelection rows today daysAhead lim).map formatActivityResult
    { success := true
      query_type := some qtRecent
      timeRangeFrom := some (formatDate today.date)
      timeRangeTo := some (formatDate endD)
      timeRangeDescr := some (descrRecent (formatDate today.date) (formatDate endD) daysAhead)
      total_count := some acts.length
      activities := some acts }

/-- The keyword arguments a tool call may carry (absent keys fall back to the
Python parameter defaults 30 / 90 / 20). -/
structure ToolArgs where
  days_back : Option Nat := none
  days_ahead : Option Nat := none
  lim : Option Nat := none
deriving DecidableEq, Repr

def nmPast : List Char := "get_past_activities".data

def nmRecent : List Char := "get_recent_activities".data

def unknownToolMsg (fname : List Char) : List Char :=
  "未知的工具函數: ".data ++ fname

/-- `execute_database_tool(function_name, arguments)`: string-keyed dispatch
over the two tools, unknown names produce a failure dict, and a raising tool
call would be converted by the surrounding `try/except` (the tools themselves
already return rather than raise, as modelled). -/
def execute_database_tool (db : Except (List Char) (List DBRow)) (now : DateTime)
    (fname : List Char) (args : ToolArgs) : ToolResult :=
  if fname = nmPast then
    get_past_activities db now (args.days_back.getD 30) (args.lim.getD 20)
  else if fname = nmRecent then
    get_recent_activities db now (args.days_ahead.getD 90) (args.lim.getD 20)
  else
    { success := false
      error := some (unknownToolMsg fname)
      function_name := some fname }

def exRow1 : DBRow :=
  { source := "youth".data
    title := "A".data
    content := some ("hello".data)
    publish_date := some ⟨⟨2026, 1, 10⟩, 500⟩
    event_date := some ⟨⟨2026, 1, 5⟩, 0⟩
    url := none
    tags := none }

def exRow2 : DBRow :=
  { source := "youth".data
    title := "B".data
    content := none
    publish_date := some ⟨⟨2026, 1, 12⟩, 100⟩
    event_date := some ⟨⟨2026, 2, 20⟩, 0⟩
    url := some ("u".data)
    tags := some ["t".data] }

def exNow : DateTime := ⟨⟨2026, 1, 15⟩, 610⟩

def exErr : List Char := "storage unreachable".data

/-! ## Identity resolution and ingestion: `resolve_post_id`, `prepare_activity_data` -/

/-- The regex class `[0-9a-zA-Z]`. -/
def isAlnumAscii (c : Char) : Bool :=
  c.isDigit || ('a' ≤ c && c ≤ 'z') || ('A' ≤ c && c ≤ 'Z')

/-- Maximal `[0-9a-zA-Z]` run at the head of the string. -/
def takeAlnum : List Char → List Char × List Char
  | [] => ([], [])
  | c :: cs =>
    if isAlnumAscii c then
      let p := takeAlnum cs
      (c :: p.1, p.2)
    else ([], c :: cs)

/-- Anchored match of `pfbid[0-9a-zA-Z]+`: the literal followed by a
non-empty greedy alphanumeric run; `group(0)` includes the literal. -/
def tryPfbidAt (s : List Char) : Option (List Char) :=
  match s with
  | 'p' :: 'f' :: 'b' :: 'i' :: 'd' :: rest =>
    if (takeAlnum rest).1.isEmpty then none
    else some ('p' :: 'f' :: 'b' :: 'i' :: 'd' :: (takeAlnum rest).1)
  | _ => none

/-- `re.search(r'pfbid[0-9a-zA-Z]+', url)`: first match. -/
def searchPfbid : List Char → Option (List Char)
  | [] => none
  | c :: cs =>
    match tryPfbidAt (c :: cs) with
    | some t => some t
    | none => searchPfbid cs

/-- Anchored match of `/reel/(\d+)`: returns group 1. -/
def tryReelAt (s : List Char) : Option (List Char) :=
  match s with
  | '/' :: 'r' :: 'e' :: 'e' :: 'l' :: '/' :: rest =>
    if (takeDigits rest).1.isEmpty then none else some (takeDigits rest).1
  | _ => none

/-- `re.search(r'/reel/(\d+)', url)`. -/
def searchReel : List Char → Option (List Char)
  | [] => none
  | c :: cs =>
    match tryReelAt (c :: cs) with
    | some t => some t
    | none => searchReel cs

/-- Anchored match of `/posts/(\d+)`: returns group 1. -/
def tryPostsAt (s : List Char) : Option (List Char) :=
  match s with
  | '/' :: 'p' :: 'o' :: 's' :: 't' :: 's' :: '/' :: rest =>
    if (takeDigits rest).1.isEmpty then none else some (takeDigits rest).1
  | _ => none

/-- `re.search(r'/posts/(\d+)', url)`. -/
def searchPosts : List Char → Option (List Char)
  | [] => none
  | c :: cs =>
    match tryPostsAt (c :: cs) with
    | some t => some t
    | none => searchPosts cs

/-- `extract_facebook_id(url)`: pfbid token verbatim, else `reel_` + digits,
else `post_` + digits, else nothing; a falsy (empty) url yields nothing. -/
def extract_facebook_id (url : List Char) : Option (List Char) :=
  if url.isEmpty then none
  else
    match searchPfbid url with
    | some t => some t
    | none =>
      match searchReel url with
      | some ds => some ("reel_".data ++ ds)
      | none =>
        match searchPosts url with
        | some ds => some ("post_".data ++ ds)
        | none => none

/-- A hexadecimal digit character, lowercase, as `hexdigest` emits. -/
def hexDigitChar (n : Nat) : Char :=
  if n < 10 then Char.ofNat (48 + n) else Char.ofNat (87 + n)

/-- Character class of lowercase hexadecimal digests. -/
def isHexChar (c : Char) : Bool :=
  c.isDigit || ('a' ≤ c && c ≤ 'f')

/-- Models `hashlib.md5(x.encode("utf-8")).hexdigest()`: a total,
deterministic map from strings to exactly 32 lowercase hex characters.  The
claims rely only on determinism and on the output shape, so the MD5
compression rounds are modelled by a simple iterated mixing fold on a 128-bit
accumulator rather than bit-for-bit. -/
def md5hex (s : List Char) : List Char :=
  let h := s.foldl (fun a c => (a * 1099511628211 + c.toNat + 131) % 2 ^ 128)
    14695981039346656037
  (List.range 32).map (fun i => hexDigitChar (h / 16 ^ (31 - i) % 16))

/-- A JSON scalar as found in the `id` field: the `isinstance(json_id, str)`
check distinguishes strings from every other shape. -/
inductive JsonVal where
  | str (s : List Char)
  | other
deriving DecidableEq, Repr

/-- One ingestion input record (a member of the `posts` array).  String
fields keep `Option` where the code distinguishes absence; `url` collapses
absent/null/empty to the empty string, which the code treats identically
(all falsy, and `post.get("url", "")` only feeds falsiness tests, regex
searches over the text, and string interpolation). -/
structure Post where
  id : Option JsonVal
  url : List Char
  title : Option (List Char)
  content : Option (List Char)
  publish_date : Option (List Char)
  retrieval_time : Option (List Char)
  tags : Option (List (List Char))
deriving DecidableEq, Repr

/-- `isinstance(json_id, str) and json_id.startswith(("pfbid") or ...)`
shape test of `resolve_post_id` step 1. -/
def idShaped (j : Option JsonVal) : Bool :=
  match j with
  | some (.str s) =>
    ("pfbid".data).isPrefixOf s || ("reel_".data).isPrefixOf s ||
      ("post_".data).isPrefixOf s
  | _ => false

/-- The hash input `f"{source}:{url or post.get('title', '')}"`. -/
def hashInput (post : Post) (source : List Char) : List Char :=
  source ++ ':' :: (if post.url.isEmpty then post.title.getD [] else post.url)

/-- `resolve_post_id(post, source)`:
1. a string id already shaped `pfbid*` / `reel_*` / `post_*` is used verbatim;
2. else the Facebook id extracted from the URL;
3. else `"fallback_" + md5(f"{source}:{url or title}").hexdigest()[:16]`. -/
def resolve_post_id (post : Post) (source : List Char) : List Char :=
  match post.id with
  | some (.str s) =>
    if ("pfbid".data).isPrefixOf s || ("reel_".data).isPrefixOf s ||
        ("post_".data).isPrefixOf s then s
    else
      match extract_facebook_id post.url with
      | some fb => fb
      | none => "fallback_".data ++ (md5hex (hashInput post source)).take 16
  | _ =>
    match extract_facebook_id post.url with
    | some fb => fb
    | none => "fallback_".data ++ (md5hex (hashInput post source)).take 16

/-- Python `str.strip()` (both ends, whitespace). -/
def stripChars (s : List Char) : List Char :=
  ((s.dropWhile isSpaceChar).reverse.dropWhile isSpaceChar).reverse

/-- Parse the fixed-width digit block of an ISO timestamp field. -/
def parseNatFixed (cs : List Char) (n : Nat) : Option (Nat × List Char) :=
  if (cs.take n).length = n ∧ (cs.take n).all Char.isDigit then
    some (digitsVal (cs.take n), cs.drop n)
  else none

/-- Offset suffix of an ISO timestamp after the `"Z" -> "+00:00"` replacement:
empty (naive value — `astimezone` then interprets it in the system-local
zone, whose offset in minutes is the `sysOffsetMin` parameter), or
`±HH:MM`. -/
def parseOffset (cs : List Char) (sysOffsetMin : Int) : Option Int :=
  match cs with
  | [] => some sysOffsetMin
  | ['Z'] => some 0
  | '+' :: rest =>
    (parseNatFixed rest 2).bind fun (h, r1) =>
      match r1 with
      | ':' :: r2 =>
        (parseNatFixed r2 2).bind fun (m, r3) =>
          if r3.isEmpty then some ((h : Int) * 60 + m) else none
      | _ => none
  | '-' :: rest =>
    (parseNatFixed rest 2).bind fun (h, r1) =>
      match r1 with
      | ':' :: r2 =>
        (parseNatFixed r2 2).bind fun (m, r3) =>
          if r3.isEmpty then some (-((h : Int) * 60 + m)) else none
      | _ => none
  | _ => none

/-- Optional `:SS[.ffffff]` seconds part (value discarded: sub-minute
precision never affects the modelled computations). -/
def dropSeconds (cs : List Char) : Option (List Char) :=
  match cs with
  | ':' :: rest =>
    (parseNatFixed rest 2).bind fun (_, r1) =>
      match r1 with
      | '.' :: r2 =>
        if (takeDigits r2).1.isEmpty then none else some (takeDigits r2).2
      | _ => some r1
  | _ => some cs

/-- Minutes-on-day-scale value converted back to a `DateTime`. -/
def dateTimeOfLin (n : Int) : DateTime :=
  ⟨fromDays (n.toNat / 1440), n.toNat % 1440⟩

/-- `parse_datetime(date_str)` of `scripts/json_to_database.py`: `None` for a
falsy string, else — only when a `"T"` occurs — `datetime.fromisoformat`
(after `"Z" -> "+00:00"`) followed by `astimezone(TAIPEI_TZ)` (UTC+8); any
parse failure is swallowed and yields `None`. -/
def parse_datetime (s : Option (List Char)) (sysOffsetMin : Int) : Option DateTime :=
  match s with
  | none => none
  | some cs =>
    if cs.isEmpty then none
    else if cs.contains 'T' then
      (parseNatFixed cs 4).bind fun (y, r1) =>
        match r1 with
        | '-' :: r2 =>
          (parseNatFixed r2 2).bind fun (mo, r3) =>
            match r3 with
            | '-' :: r4 =>
              (parseNatFixed r4 2).bind fun (d, r5) =>
                match r5 with
                | 'T' :: r6 =>
                  (parseNatFixed r6 2).bind fun (hh, r7) =>
                    match r7 with
                    | ':' :: r8 =>
                      (parseNatFixed r8 2).bind fun (mi, r9) =>
                        (dropSeconds r9).bind fun r10 =>
                          (parseOffset r10 sysOffsetMin).bind fun off =>
                            (mkValidDate y mo d).map fun dt =>
                              dateTimeOfLin ((toDays dt : Int) * 1440 + hh * 60 + mi
                                - off + 480)
                    | _ => none
                | _ => none
            | _ => none
        | _ => none
    else none

def defaultTitle : List Char := "无标题".data

/-- `prepare_activity_data(post, source)`: the row dict written to the store.
`raw_data` (an opaque verbatim re-serialisation of the record) is carried as
the record itself. -/
structure ActivityData where
  source : List Char
  post_id : List Char
  title : List Char
  content : List Char
  publish_date : Option DateTime
  event_date : Option Date
  url : List Char
  tags : Option (List (List Char))
  retrieval_time : Option DateTime
  raw_data : Post
deriving Repr

def prepare_activity_data (post : Post) (source : List Char) (sysOffsetMin : Int)
    (nowYear : Nat) : ActivityData :=
  let publish := parse_datetime post.publish_date sysOffsetMin
  let content := stripChars (post.content.getD [])
  { source := source
    post_id := resolve_post_id post source
    title := (post.title.getD defaultTitle).take 500
    content := content
    publish_date := publish
    event_date := extract_event_date content publish nowYear
    url := post.url
    tags :=
      match post.tags with
      | some ts => if ts.isEmpty then none else some ts
      | none => none
    retrieval_time := parse_datetime post.retrieval_time sysOffsetMin
    raw_data := post }

def exPostFallback : Post :=
  { id := none
    url := []
    title := some ("Spring Fair".data)
    content := none
    publish_date := none
    retrieval_time := none
    tags := none }

def exSource : List Char := "youth".data

def longContent : List Char := List.replicate 501 'a'

def rowLong : DBRow :=
  { source := "youth".data
    title := "L".data
    content := some longContent
    publish_date := some ⟨⟨2026, 1, 10⟩, 500⟩
    event_date := some ⟨⟨2026, 1, 5⟩, 0⟩
    url := none
    tags := none }

/-- A record whose content is `n + 1` copies of a non-whitespace character;
used to show the stored content length is unbounded. -/
def postRep (n : Nat) : Post :=
  { id := none
    url := []
    title := none
    content := some (List.replicate (n + 1) 'b')
    publish_date := none
    retrieval_time := none
    tags := none }

/-- The left-context invariant threaded through a scan: the character just
before the current position (the last of `pre`, or `prev` at the start) is
not a digit, so the `(?<!\d)` lookbehind admits a match at the position. -/
def goodTail (pre : List Char) (prev : Option Char) : Prop :=
  match pre.getLast? with
  | some c => c.isDigit = false
  | none => lbNotDigit prev = true

def dashIsoExample : List Char := "2026-02-11".data

def rocOutOfBandExample : List Char := "208年1月1日".data

def c5wPre : List Char := "活動日期：".data

def exBareContent : List Char := "1月27日".data

def exPub : DateTime := ⟨⟨2026, 1, 1⟩, 600⟩

theorem timedeltaDays_midnight (a : DateTime) (d : Date) (h : a.minute < 1440) :
    timedeltaDays a (midnightOf d) = (toDays a.date : Int) - toDays d := by
  unfold timedeltaDays midnightOf DateTime.lin
  dsimp only
  have h1440 : (0 : Int) ≤ 1440 := by norm_num
  rw [Int.fdiv_eq_ediv _ h1440]
  have hm : (a.minute : Int) < 1440 := by exact_mod_cast h
  omega

theorem takeDigits_append_eq (s : List Char) :
    (takeDigits s).1 ++ (takeDigits s).2 = s := by
  induction s with
  | nil => rfl
  | cons c cs ih =>
    unfold takeDigits
    by_cases h : c.isDigit <;> simp [h, ih]

theorem takeDigits_length (s : List Char) :
    (takeDigits s).1.length + (takeDigits s).2.length = s.length := by
  conv_rhs => rw [← takeDigits_append_eq s]
  simp

theorem skipSpc_length_le (s : List Char) : (skipSpc s).length ≤ s.length := by
  induction s with
  | nil => simp [skipSpc]
  | cons c cs ih =>
    unfold skipSpc
    by_cases h : isSpaceChar c <;> simp [h]
    · omega

theorem takeDigits_append_digits {a : List Char} (b : List Char)
    (ha : ∀ c ∈ a, c.isDigit = true) (hb : headNotDigit b) :
    takeDigits (a ++ b) = (a, b) := by
  induction a with
  | nil =>
    cases b with
    | nil => rfl
    | cons c cs =>
      have := hb c rfl
      simp [takeDigits, this]
  | cons c cs ih =>
    have hc : c.isDigit = true := ha c (by simp)
    have ih2 := ih (fun x hx => ha x (by simp [hx]))
    simp [takeDigits, hc, ih2]

theorem takeDigits_append_of_rest {a : List Char} (b : List Char)
    (ha : (takeDigits a).2 ≠ []) :
    takeDigits (a ++ b) = ((takeDigits a).1, (takeDigits a).2 ++ b) := by
  induction a with
  | nil => simp [takeDigits] at ha
  | cons c cs ih =>
    by_cases h : c.isDigit
    · have ha2 : (takeDigits cs).2 ≠ [] := by
        unfold takeDigits at ha
        simpa [h] using ha
      have ih2 := ih ha2
      simp [takeDigits, h, ih2]
    · simp [takeDigits, h]

theorem takeDigits_rest_ne_of_nonDigit {a : List Char} {c : Char}
    (hc : c ∈ a) (hnd : c.isDigit = false) : (takeDigits a).2 ≠ [] := by
  induction a with
  | nil => simp at hc
  | cons x xs ih =>
    unfold takeDigits
    by_cases hx : x.isDigit
    · simp only [hx, if_true]
      rcases List.mem_cons.mp hc with h | h
      · subst h; simp [hx] at hnd
      · exact ih h
    · simp [hx]

theorem skipSpc_append {a : List Char} (b : List Char)
    (hb : ∀ c, b.head? = some c → isSpaceChar c = false) :
    skipSpc (a ++ b) = skipSpc a ++ b := by
  induction a with
  | nil =>
    cases b with
    | nil => rfl
    | cons c cs => simp [skipSpc, hb c rfl]
  | cons c cs ih =>
    unfold skipSpc
    by_cases h : isSpaceChar c <;> simp [h, ih]

theorem tryIsoSlash_consumes :
    ∀ (s : List Char) (g : Nat × Nat × Nat) (c : Char) (r : List Char),
      tryIsoSlash s = some (g, c, r) → r.length < s.length := by
  intro s g c r h
  unfold tryIsoSlash at h
  dsimp only at h
  split at h
  case isTrue hy =>
    split at h
    next c1 r2 heq1 =>
      split at h
      case isTrue hc1 =>
        split at h
        case isTrue hm =>
          split at h
          next c2 r4 heq2 =>
            split at h
            case isTrue hc2 =>
              split at h
              case isTrue hd =>
                simp only [Option.some.injEq, Prod.mk.injEq] at h
                obtain ⟨-, -, hr⟩ := h
                subst hr
                have l1 := takeDigits_length s
                have l2 : ((takeDigits s).2).length = r2.length + 1 := by
                  rw [heq1]
                  rfl
                have l3 := takeDigits_length r2
                have l4 : ((takeDigits r2).2).length = r4.length + 1 := by
                  rw [heq2]
                  rfl
                have l5 := takeDigits_length r4
                omega
              case isFalse => exact absurd h (by simp)
            case isFalse => exact absurd h (by simp)
          next heq2 => exact absurd h (by simp)
        case isFalse => exact absurd h (by simp)
      case isFalse => exact absurd h (by simp)
    next heq1 => exact absurd h (by simp)
  case isFalse => exact absurd h (by simp)

theorem tryRocFull_consumes :
    ∀ (s : List Char) (g : Nat × Nat × Nat) (c : Char) (r : List Char),
      tryRocFull s = some (g, c, r) → r.length < s.length := by
  intro s g c r h
  unfold tryRocFull at h
  dsimp only at h
  split at h
  case isTrue hy =>
    split at h
    next c1 r2 heq1 =>
      split at h
      case isTrue hc1 =>
        split at h
        case isTrue hm =>
          split at h
          next c2 r4 heq2 =>
            split at h
            case isTrue hc2 =>
              split at h
              case isTrue hd =>
                split at h
                next c3 r6 heq3 =>
                  split at h
                  case isTrue hc3 =>
                    simp only [Option.some.injEq, Prod.mk.injEq] at h
                    obtain ⟨-, -, hr⟩ := h
                    subst hr
                    have l1 := takeDigits_length s
                    have s1 := skipSpc_length_le (takeDigits s).2
                    have l2 : (skipSpc (takeDigits s).2).length = r2.length + 1 := by
                      rw [heq1]
                      rfl
                    have s2 := skipSpc_length_le r2
                    have l3 := takeDigits_length (skipSpc r2)
                    have s3 := skipSpc_length_le (takeDigits (skipSpc r2)).2
                    have l4 : (skipSpc (takeDigits (skipSpc r2)).2).length = r4.length + 1 := by
                      rw [heq2]
                      rfl
                    have s4 := skipSpc_length_le r4
                    have l5 := takeDigits_length (skipSpc r4)
                    have s5 := skipSpc_length_le (takeDigits (skipSpc r4)).2
                    have l6 : (skipSpc (takeDigits (skipSpc r4)).2).length = r6.length + 1 := by
                      rw [heq3]
                      rfl
                    omega
                  case isFalse => exact absurd h (by simp)
                next heq3 => exact absurd h (by simp)
              case isFalse => exact absurd h (by simp)
            case isFalse => exact absurd h (by simp)
          next heq2 => exact absurd h (by simp)
        case isFalse => exact absurd h (by simp)
      case isFalse => exact absurd h (by simp)
    next heq1 => exact absurd h (by simp)
  case isFalse => exact absurd h (by simp)

theorem scanGen_nil {G : Type} (lb : Option Char → Bool)
    (tryAt : List Char → Option (G × Char × List Char)) (f : Nat) (p : Option Char) :
    scanGen lb tryAt f [] p = [] := by
  cases f <;> rfl

theorem scanGen_cons {G : Type} (lb : Option Char → Bool)
    (tryAt : List Char → Option (G × Char × List Char)) (f : Nat) (c : Char)
    (cs : List Char) (p : Option Char) :
    scanGen lb tryAt (f + 1) (c :: cs) p =
      if lb p then
        match tryAt (c :: cs) with
        | some (g, lastc, rest) => g :: scanGen lb tryAt f rest (some lastc)
        | none => scanGen lb tryAt f cs (some c)
      else scanGen lb tryAt f cs (some c) := rfl

theorem scanGen_fuel {G : Type} (lb : Option Char → Bool)
    (tryAt : List Char → Option (G × Char × List Char))
    (hc : ∀ s g c r, tryAt s = some (g, c, r) → r.length < s.length) :
    ∀ (f₁ f₂ : Nat) (s : List Char) (p : Option Char),
      s.length ≤ f₁ → s.length ≤ f₂ →
      scanGen lb tryAt f₁ s p = scanGen lb tryAt f₂ s p := by
  intro f₁
  induction f₁ with
  | zero =>
    intro f₂ s p h1 h2
    have hs : s = [] := by cases s with
      | nil => rfl
      | cons c cs => simp at h1
    subst hs
    rw [scanGen_nil, scanGen_nil]
  | succ f ih =>
    intro f₂ s p h1 h2
    cases s with
    | nil => rw [scanGen_nil, scanGen_nil]
    | cons c cs =>
      cases f₂ with
      | zero => simp at h2
      | succ f₂' =>
        rw [scanGen_cons, scanGen_cons]
        simp only [List.length_cons] at h1 h2
        by_cases hlb : lb p
        · simp only [hlb, if_true]
          cases htry : tryAt (c :: cs) with
          | none => exact ih f₂' cs (some c) (by omega) (by omega)
          | some t =>
            obtain ⟨g, lc, rest⟩ := t
            dsimp only
            have hlen := hc _ _ _ _ htry
            simp only [List.length_cons] at hlen
            rw [ih f₂' rest (some lc) (by omega) (by omega)]
        · simp only [hlb, if_false]
          exact ih f₂' cs (some c) (by omega) (by omega)

theorem scanIsoSlashFrom_nil (p : Option Char) : scanIsoSlashFrom [] p = [] := rfl

theorem scanIsoSlashFrom_cons (c : Char) (cs : List Char) (p : Option Char) :
    scanIsoSlashFrom (c :: cs) p =
      if lbNotDigit p then
        match tryIsoSlash (c :: cs) with
        | some (g, lastc, rest) => g :: scanIsoSlashFrom rest (some lastc)
        | none => scanIsoSlashFrom cs (some c)
      else scanIsoSlashFrom cs (some c) := by
  unfold scanIsoSlashFrom
  rw [show (c :: cs).length = cs.length + 1 from rfl, scanGen_cons]
  by_cases hlb : lbNotDigit p
  · simp only [hlb, if_true]
    cases htry : tryIsoSlash (c :: cs) with
    | none => rfl
    | some t =>
      obtain ⟨g, lc, rest⟩ := t
      dsimp only
      have hlen := tryIsoSlash_consumes _ _ _ _ htry
      simp only [List.length_cons] at hlen
      rw [scanGen_fuel lbNotDigit tryIsoSlash tryIsoSlash_consumes cs.length rest.length
        rest (some lc) (by omega) le_rfl]
  · simp only [hlb, if_false]
    rfl

theorem scanRocFullFrom_nil (p : Option Char) : scanRocFullFrom [] p = [] := rfl

theorem scanRocFullFrom_cons (c : Char) (cs : List Char) (p : Option Char) :
    scanRocFullFrom (c :: cs) p =
      match tryRocFull (c :: cs) with
      | some (g, lastc, rest) => g :: scanRocFullFrom rest (some lastc)
      | none => scanRocFullFrom cs (some c) := by
  unfold scanRocFullFrom
  rw [show (c :: cs).length = cs.length + 1 from rfl, scanGen_cons]
  simp only [if_true]
  cases htry : tryRocFull (c :: cs) with
  | none => rfl
  | some t =>
    obtain ⟨g, lc, rest⟩ := t
    dsimp only
    have hlen := tryRocFull_consumes _ _ _ _ htry
    simp only [List.length_cons] at hlen
    rw [scanGen_fuel (fun _ => true) tryRocFull tryRocFull_consumes cs.length rest.length
      rest (some lc) (by omega) le_rfl]

theorem listMinD_mem {l : List Date} {m : Date} (h : listMinD l = some m) : m ∈ l := by
  induction l with
  | nil => simp [listMinD] at h
  | cons c cs ih =>
    unfold listMinD at h
    cases h2 : listMinD cs with
    | none => rw [h2] at h; injection h with h; simp [h]
    | some m2 =>
      rw [h2] at h
      by_cases hle : toDays c ≤ toDays m2
      · simp [hle] at h; simp [h]
      · simp [hle] at h
        subst h
        exact List.mem_cons_of_mem _ (ih h2)

theorem listMinD_eq_none {l : List Date} : listMinD l = none ↔ l = [] := by
  constructor
  · intro h
    cases l with
    | nil => rfl
    | cons c cs =>
      unfold listMinD at h
      cases hm : listMinD cs with
      | none => rw [hm] at h; exact absurd h (by simp)
      | some m => rw [hm] at h; by_cases hle : toDays c ≤ toDays m <;> simp [hle] at h
  · intro h; subst h; rfl

theorem listMinD_le {l : List Date} {m : Date} (h : listMinD l = some m) :
    ∀ x ∈ l, toDays m ≤ toDays x := by
  induction l generalizing m with
  | nil => simp [listMinD] at h
  | cons c cs ih =>
    intro x hx
    unfold listMinD at h
    cases h2 : listMinD cs with
    | none =>
      rw [h2] at h
      injection h with h
      subst h
      have hcs : cs = [] := listMinD_eq_none.mp h2
      subst hcs
      rcases List.mem_cons.mp hx with hxc | hxcs
      · rw [hxc]
      · simp at hxcs
    | some m2 =>
      rw [h2] at h
      by_cases hle : toDays c ≤ toDays m2
      · simp [hle] at h
        subst h
        rcases List.mem_cons.mp hx with hxc | hxcs
        · rw [hxc]
        · exact le_trans hle (ih h2 x hxcs)
      · simp [hle] at h
        subst h
        rcases List.mem_cons.mp hx with hxc | hxcs
        · rw [hxc]; omega
        · exact ih h2 x hxcs

theorem daysInMonth_le_31 (y m : Nat) : daysInMonth y m ≤ 31 := by
  unfold daysInMonth
  split
  · split <;> omega
  · split <;> omega

theorem mkValidDate_some {y m d : Nat} {dt : Date} (h : mkValidDate y m d = some dt) :
    dt = ⟨y, m, d⟩ ∧ 1 ≤ y ∧ 1 ≤ m ∧ m ≤ 12 ∧ 1 ≤ d ∧ d ≤ daysInMonth y m := by
  unfold mkValidDate at h
  split at h
  case isTrue hv =>
    injection h with h
    exact ⟨h.symm, by omega, by omega, by omega, by omega, by omega⟩
  case isFalse => exact absurd h (by simp)

theorem mkValidDate_roundtrip {y m d : Nat} {dt : Date}
    (h : mkValidDate y m d = some dt) :
    mkValidDate dt.year dt.month dt.day = some dt := by
  obtain ⟨hdt, -⟩ := mkValidDate_some h
  subst hdt
  exact h

theorem candRocFull_valid {g : Nat × Nat × Nat} {dt : Date}
    (h : candRocFull g = some dt) :
    mkValidDate dt.year dt.month dt.day = some dt := by
  unfold candRocFull at h
  split at h
  · exact mkValidDate_roundtrip h
  · exact absurd h (by simp)

theorem candRocSlash_valid {g : Nat × Nat × Nat} {dt : Date}
    (h : candRocSlash g = some dt) :
    mkValidDate dt.year dt.month dt.day = some dt := by
  unfold candRocSlash at h
  split at h
  · split at h
    · exact mkValidDate_roundtrip h
    · exact absurd h (by simp)
  · exact absurd h (by simp)

theorem candIso_valid {g : Nat × Nat × Nat} {dt : Date}
    (h : candIso g = some dt) :
    mkValidDate dt.year dt.month dt.day = some dt := by
  unfold candIso at h
  split at h
  · exact mkValidDate_roundtrip h
  · exact absurd h (by simp)

theorem resolveYearless_valid {refYear : Nat} {publish : Option DateTime}
    {g : Nat × Nat} {dt : Date} (h : resolveYearless refYear publish g = some dt) :
    mkValidDate dt.year dt.month dt.day = some dt := by
  unfold resolveYearless at h
  split at h
  case isTrue =>
    cases hmk : mkValidDate refYear g.1 g.2 with
    | none => rw [hmk] at h; exact absurd h (by simp)
    | some dt0 =>
      rw [hmk] at h
      rw [Option.some_bind] at h
      cases publish with
      | none =>
        injection h with h
        subst h
        exact mkValidDate_roundtrip hmk
      | some pub =>
        by_cases hcond : timedeltaDays pub (midnightOf dt0) > 60
        · simp only [hcond, if_true] at h
          exact mkValidDate_roundtrip h
        · simp only [hcond, if_false] at h
          injection h with h
          subst h
          exact mkValidDate_roundtrip hmk
  case isFalse => exact absurd h (by simp)

/-- Claim C1: for every non-empty candidate set and every anchor timestamp,
the disambiguator of `extract_event_date` returns the earliest candidate whose
date is on or after the anchor's calendar date at midnight (the boundary being
inclusive), and when no candidate reaches that boundary it returns the
globally earliest candidate of the set. -/
theorem c1_selection_policy (cands : List Date) (pub : DateTime)
    (hne : cands ≠ []) :
    ∃ m, selectEventDate cands (some pub) = some m ∧ m ∈ cands ∧
      ((∃ c ∈ cands, toDays pub.date ≤ toDays c) →
        toDays pub.date ≤ toDays m ∧
        ∀ c ∈ cands, toDays pub.date ≤ toDays c → toDays m ≤ toDays c) ∧
      ((∀ c ∈ cands, toDays c < toDays pub.date) →
        ∀ c ∈ cands, toDays m ≤ toDays c) := by
  unfold selectEventDate
  have hemp : cands.isEmpty = false := by
    cases cands with
    | nil => exact absurd rfl hne
    | cons a as => rfl
  rw [if_neg (show ¬ (cands.isEmpty = true) by rw [hemp]; exact Bool.false_ne_true)]
  dsimp only
  cases hmin : listMinD (cands.dedup.filter (fun dt => toDays pub.date ≤ toDays dt)) with
  | some m =>
    refine ⟨m, rfl, ?_, ?_, ?_⟩
    · have hm := listMinD_mem hmin
      have := List.mem_filter.mp hm
      exact List.mem_dedup.mp this.1
    · intro _
      have hm := listMinD_mem hmin
      have hmf := List.mem_filter.mp hm
      refine ⟨by simpa using hmf.2, ?_⟩
      intro c hc hcge
      exact listMinD_le hmin c (List.mem_filter.mpr ⟨List.mem_dedup.mpr hc, by simpa⟩)
    · intro hall
      have hm := listMinD_mem hmin
      have hmf := List.mem_filter.mp hm
      have hmem : m ∈ cands := List.mem_dedup.mp hmf.1
      have h1 : toDays pub.date ≤ toDays m := by simpa using hmf.2
      have h2 := hall m hmem
      omega
  | none =>
    have hfe := listMinD_eq_none.mp hmin
    have hcs : cands.dedup ≠ [] := by
      intro h
      exact hne ((List.dedup_eq_nil cands).mp h)
    cases hmin2 : listMinD cands.dedup with
    | none => exact absurd (listMinD_eq_none.mp hmin2) hcs
    | some m =>
      refine ⟨m, rfl, List.mem_dedup.mp (listMinD_mem hmin2), ?_, ?_⟩
      · rintro ⟨c, hc, hcge⟩
        have : c ∈ cands.dedup.filter (fun dt => toDays pub.date ≤ toDays dt) :=
          List.mem_filter.mpr ⟨List.mem_dedup.mpr hc, by simpa⟩
        rw [hfe] at this
        simp at this
      · intro _
        intro c hc
        exact listMinD_le hmin2 c (List.mem_dedup.mpr hc)

theorem c1_selection_policy_witness :
    ∃ m, selectEventDate [⟨2026, 2, 5⟩, ⟨2026, 1, 27⟩] (some ⟨⟨2026, 1, 27⟩, 610⟩) = some m ∧
      m ∈ [⟨2026, 2, 5⟩, (⟨2026, 1, 27⟩ : Date)] ∧
      ((∃ c ∈ [⟨2026, 2, 5⟩, (⟨2026, 1, 27⟩ : Date)],
          toDays (⟨2026, 1, 27⟩ : Date) ≤ toDays c) →
        toDays (⟨2026, 1, 27⟩ : Date) ≤ toDays m ∧
        ∀ c ∈ [⟨2026, 2, 5⟩, (⟨2026, 1, 27⟩ : Date)],
          toDays (⟨2026, 1, 27⟩ : Date) ≤ toDays c → toDays m ≤ toDays c) ∧
      ((∀ c ∈ [⟨2026, 2, 5⟩, (⟨2026, 1, 27⟩ : Date)],
          toDays c < toDays (⟨2026, 1, 27⟩ : Date)) →
        ∀ c ∈ [⟨2026, 2, 5⟩, (⟨2026, 1, 27⟩ : Date)], toDays m ≤ toDays c) :=
  c1_selection_policy [⟨2026, 2, 5⟩, ⟨2026, 1, 27⟩] ⟨⟨2026, 1, 27⟩, 610⟩ (by simp)

/-- Claim C2: for a yearless candidate (pattern 4 or 5) resolved with an
anchor `publish_date` present (so `ref_year` is the anchor's year), the
resolved year is `anchor.year + 1` exactly when the candidate dated in the
anchor's year falls more than 60 days before the anchor, and the anchor's year
otherwise; a candidate on or after the anchor's date is never adjusted. -/
theorem c2_yearless_resolution (pub : DateTime) (m d : Nat) (dt res : Date)
    (hmin : pub.minute < 1440)
    (hdt : mkValidDate pub.date.year m d = some dt)
    (hres : resolveYearless pub.date.year (some pub) (m, d) = some res) :
    (res.year = pub.date.year + 1 ↔ (toDays pub.date : Int) - toDays dt > 60) ∧
    (¬ ((toDays pub.date : Int) - toDays dt > 60) → res = dt) ∧
    (toDays pub.date ≤ toDays dt → res = dt ∧ res.year = pub.date.year) := by
  obtain ⟨hdteq, hy1, hm1, hm12, hd1, hdmax⟩ := mkValidDate_some hdt
  have hd31 : d ≤ 31 := le_trans hdmax (daysInMonth_le_31 _ _)
  unfold resolveYearless at hres
  rw [if_pos (by exact ⟨hm1, hm12, hd1, hd31⟩)] at hres
  rw [hdt, Option.some_bind] at hres
  dsimp only at hres
  rw [timedeltaDays_midnight pub dt hmin] at hres
  by_cases hcond : (toDays pub.date : Int) - toDays dt > 60
  · rw [if_pos hcond] at hres
    obtain ⟨hreseq, -, -, -, -, -⟩ := mkValidDate_some hres
    subst hreseq
    refine ⟨by simpa using hcond, fun hc => absurd hcond hc, fun hle => ?_⟩
    exfalso
    have : (toDays pub.date : Int) ≤ toDays dt := by exact_mod_cast hle
    omega
  · rw [if_neg hcond] at hres
    injection hres with hres
    subst hres
    subst hdteq
    refine ⟨?_, fun _ => rfl, fun _ => ⟨rfl, rfl⟩⟩
    constructor
    · intro h
      simp at h
    · intro h
      exact absurd h hcond

theorem c2_yearless_resolution_witness :
    ((⟨2026, 1, 27⟩ : Date).year = (⟨⟨2025, 10, 1⟩, 610⟩ : DateTime).date.year + 1 ↔
      (toDays (⟨⟨2025, 10, 1⟩, 610⟩ : DateTime).date : Int) - toDays ⟨2025, 1, 27⟩ > 60) ∧
    (¬ ((toDays (⟨⟨2025, 10, 1⟩, 610⟩ : DateTime).date : Int) - toDays ⟨2025, 1, 27⟩ > 60) →
      (⟨2026, 1, 27⟩ : Date) = ⟨2025, 1, 27⟩) ∧
    (toDays (⟨⟨2025, 10, 1⟩, 610⟩ : DateTime).date ≤ toDays ⟨2025, 1, 27⟩ →
      (⟨2026, 1, 27⟩ : Date) = ⟨2025, 1, 27⟩ ∧
      (⟨2026, 1, 27⟩ : Date).year = (⟨⟨2025, 10, 1⟩, 610⟩ : DateTime).date.year) :=
  c2_yearless_resolution ⟨⟨2025, 10, 1⟩, 610⟩ 1 27 ⟨2025, 1, 27⟩ ⟨2026, 1, 27⟩
    (by decide) (by decide) (by decide)

/-- Claim C9: `extract_event_date` is a total function of its inputs; empty
content yields `None`; every candidate that the five patterns contribute is a
constructible calendar date (matched substrings that fail the range checks or
the `datetime` constructor contribute nothing); and the overall result is
`None` exactly when the candidate set is empty — never an error. -/
theorem c9_extractor_safety (content : List Char) (publish : Option DateTime)
    (nowYear : Nat) :
    extract_event_date [] publish nowYear = none ∧
    (∀ dt ∈ extractCandidates content publish nowYear,
      mkValidDate dt.year dt.month dt.day = some dt) ∧
    (extract_event_date content publish nowYear = none ↔
      extractCandidates content publish nowYear = []) := by
  refine ⟨rfl, ?_, ?_⟩
  · intro dt hdt
    unfold extractCandidates at hdt
    simp only [List.mem_append] at hdt
    rcases hdt with ((((h | h) | h) | h) | h) <;>
      obtain ⟨g, -, hg⟩ := List.mem_filterMap.mp h
    · exact candRocFull_valid hg
    · exact candRocSlash_valid hg
    · exact candIso_valid hg
    · exact resolveYearless_valid hg
    · exact resolveYearless_valid hg
  · cases content with
    | nil =>
      constructor
      · intro _; rfl
      · intro _; rfl
    | cons c cs =>
      unfold extract_event_date
      rw [if_neg (show ¬ ((c :: cs).isEmpty = true) by simp)]
      unfold selectEventDate
      by_cases hc : (extractCandidates (c :: cs) publish nowYear).isEmpty
      · rw [if_pos hc]
        simp only [List.isEmpty_iff] at hc
        exact ⟨fun _ => hc, fun _ => rfl⟩
      · rw [if_neg hc]
        simp only [List.isEmpty_iff] at hc
        dsimp only
        constructor
        · intro hnone
          exfalso
          have hdne : (extractCandidates (c :: cs) publish nowYear).dedup ≠ [] := by
            intro h
            exact hc ((List.dedup_eq_nil _).mp h)
          cases publish with
          | none =>
            dsimp only at hnone
            exact hdne ((listMinD_eq_none).mp hnone)
          | some pub =>
            dsimp only at hnone
            cases hm1 : listMinD
                ((extractCandidates (c :: cs) (some pub) nowYear).dedup.filter
                  (fun dt => toDays pub.date ≤ toDays dt)) with
            | some m => rw [hm1] at hnone; simp at hnone
            | none =>
              rw [hm1] at hnone
              exact hdne (listMinD_eq_none.mp hnone)
        · intro h
          exact absurd h hc

theorem mem_take_or_length {α : Type} {l : List α} {n : Nat} {a : α} (h : a ∈ l) :
    a ∈ l.take n ∨ (l.take n).length = n := by
  rcases le_or_lt l.length n with hle | hlt
  · left
    rw [List.take_of_length_le hle]
    exact h
  · right
    rw [List.length_take]
    omega

theorem inPastWindow_iff (today : DateTime) (db : Nat) (r : DBRow) :
    inPastWindow today db r = true ↔
      ∃ e, effDate r = some e ∧ today.lin - 1440 * db ≤ e.lin ∧ e.lin < today.lin := by
  unfold inPastWindow
  cases h : effDate r with
  | none => simp
  | some e =>
    simp only [Bool.and_eq_true, decide_eq_true_eq, Option.some.injEq]
    constructor
    · rintro ⟨h1, h2⟩
      exact ⟨e, rfl, h2, h1⟩
    · rintro ⟨e2, he2, h1, h2⟩
      subst he2
      exact ⟨h2, h1⟩

theorem inRecentWindow_iff (today : DateTime) (da : Nat) (r : DBRow) :
    inRecentWindow today da r = true ↔
      ∃ e, effDate r = some e ∧ today.lin ≤ e.lin ∧ e.lin ≤ today.lin + 1440 * da := by
  unfold inRecentWindow
  cases h : effDate r with
  | none => simp
  | some e =>
    simp only [Bool.and_eq_true, decide_eq_true_eq, Option.some.injEq]
    constructor
    · rintro ⟨h1, h2⟩
      exact ⟨e, rfl, h1, h2⟩
    · rintro ⟨e2, he2, h1, h2⟩
      subst he2
      exact ⟨h1, h2⟩

theorem pastSelection_mem {rows : List DBRow} {today : DateTime} {db lim : Nat}
    {r : DBRow} (h : r ∈ pastSelection rows today db lim) :
    r ∈ rows ∧ inPastWindow today db r = true := by
  unfold pastSelection at h
  have h1 := List.mem_of_mem_take h
  have h2 := (List.mergeSort_perm (rows.filter (inPastWindow today db)) _).mem_iff.mp h1
  exact ⟨(List.mem_filter.mp h2).1, (List.mem_filter.mp h2).2⟩

theorem recentSelection_mem {rows : List DBRow} {today : DateTime} {da lim : Nat}
    {r : DBRow} (h : r ∈ recentSelection rows today da lim) :
    r ∈ rows ∧ inRecentWindow today da r = true := by
  unfold recentSelection at h
  have h1 := List.mem_of_mem_take h
  have h2 := (List.mergeSort_perm (rows.filter (inRecentWindow today da)) _).mem_iff.mp h1
  exact ⟨(List.mem_filter.mp h2).1, (List.mem_filter.mp h2).2⟩

theorem pastSelection_complete {rows : List DBRow} {today : DateTime} {db lim : Nat}
    {r : DBRow} (hr : r ∈ rows) (hw : inPastWindow today db r = true) :
    r ∈ pastSelection rows today db lim ∨ (pastSelection rows today db lim).length = lim := by
  unfold pastSelection
  apply mem_take_or_length
  exact (List.mergeSort_perm (rows.filter (inPastWindow today db)) _).mem_iff.mpr
    (List.mem_filter.mpr ⟨hr, hw⟩)

theorem recentSelection_complete {rows : List DBRow} {today : DateTime} {da lim : Nat}
    {r : DBRow} (hr : r ∈ rows) (hw : inRecentWindow today da r = true) :
    r ∈ recentSelection rows today da lim ∨ (recentSelection rows today da lim).length = lim := by
  unfold recentSelection
  apply mem_take_or_length
  exact (List.mergeSort_perm (rows.filter (inRecentWindow today da)) _).mem_iff.mpr
    (List.mem_filter.mpr ⟨hr, hw⟩)

theorem pastSelection_sorted (rows : List DBRow) (today : DateTime) (db lim : Nat) :
    List.Sorted (fun a b => effLin b ≤ effLin a) (pastSelection rows today db lim) := by
  unfold pastSelection
  apply List.Pairwise.sublist (List.take_sublist _ _)
  have hs := @List.sorted_mergeSort DBRow pastLe
    (fun a b c hab hbc => by
      simp only [pastLe, decide_eq_true_eq] at *
      omega)
    (fun a b => by
      simp only [pastLe, Bool.or_eq_true, decide_eq_true_eq]
      omega)
    (rows.filter (inPastWindow today db))
  exact hs.imp (fun h => by simpa [pastLe] using h)

theorem recentSelection_sorted (rows : List DBRow) (today : DateTime) (da lim : Nat) :
    List.Sorted (fun a b => effLin a ≤ effLin b) (recentSelection rows today da lim) := by
  unfold recentSelection
  apply List.Pairwise.sublist (List.take_sublist _ _)
  have hs := @List.sorted_mergeSort DBRow recentLe
    (fun a b c hab hbc => by
      simp only [recentLe, decide_eq_true_eq] at *
      omega)
    (fun a b => by
      simp only [recentLe, Bool.or_eq_true, decide_eq_true_eq]
      omega)
    (rows.filter (inRecentWindow today da))
  exact hs.imp (fun h => by simpa [recentLe] using h)

/-- Claim C3: `get_past_activities` returns exactly the stored rows whose
effective date (event date if present, else publish date) lies in the
half-open window `[today - days_back, today)` — `today` being Taipei midnight
— sorted descending by effective date and capped at `limit`; and
`get_recent_activities` returns exactly those in the closed window
`[today, today + days_ahead]`, sorted ascending, capped at `limit`, the
window endpoints being exact in both cases. -/
theorem c3_window_semantics (rows : List DBRow) (now : DateTime)
    (daysBack daysAhead lim : Nat) :
    ((get_past_activities (.ok rows) now daysBack lim).activities =
      some ((pastSelection rows (todayStart now) daysBack lim).map formatActivityResult)) ∧
    (∀ r ∈ pastSelection rows (todayStart now) daysBack lim,
      r ∈ rows ∧ ∃ e, effDate r = some e ∧
        (todayStart now).lin - 1440 * daysBack ≤ e.lin ∧ e.lin < (todayStart now).lin) ∧
    (∀ r ∈ rows,
      (∃ e, effDate r = some e ∧
        (todayStart now).lin - 1440 * daysBack ≤ e.lin ∧ e.lin < (todayStart now).lin) →
      r ∈ pastSelection rows (todayStart now) daysBack lim ∨
        (pastSelection rows (todayStart now) daysBack lim).length = lim) ∧
    ((pastSelection rows (todayStart now) daysBack lim).length ≤ lim) ∧
    List.Sorted (fun a b => effLin b ≤ effLin a)
      (pastSelection rows (todayStart now) daysBack lim) ∧
    ((get_recent_activities (.ok rows) now daysAhead lim).activities =
      some ((recentSelection rows (todayStart now) daysAhead lim).map formatActivityResult)) ∧
    (∀ r ∈ recentSelection rows (todayStart now) daysAhead lim,
      r ∈ rows ∧ ∃ e, effDate r = some e ∧
        (todayStart now).lin ≤ e.lin ∧ e.lin ≤ (todayStart now).lin + 1440 * daysAhead) ∧
    (∀ r ∈ rows,
      (∃ e, effDate r = some e ∧
        (todayStart now).lin ≤ e.lin ∧ e.lin ≤ (todayStart now).lin + 1440 * daysAhead) →
      r ∈ recentSelection rows (todayStart now) daysAhead lim ∨
        (recentSelection rows (todayStart now) daysAhead lim).length = lim) ∧
    ((recentSelection rows (todayStart now) daysAhead lim).length ≤ lim) ∧
    List.Sorted (fun a b => effLin a ≤ effLin b)
      (recentSelection rows (todayStart now) daysAhead lim) := by
  refine ⟨rfl, ?_, ?_, ?_, pastSelection_sorted rows _ daysBack lim,
    rfl, ?_, ?_, ?_, recentSelection_sorted rows _ daysAhead lim⟩
  · intro r hr
    obtain ⟨h1, h2⟩ := pastSelection_mem hr
    exact ⟨h1, (inPastWindow_iff _ _ _).mp h2⟩
  · intro r hr hw
    exact pastSelection_complete hr ((inPastWindow_iff _ _ _).mpr hw)
  · unfold pastSelection
    exact le_trans (Nat.le_of_eq (List.length_take _ _)) (Nat.min_le_left _ _)
  · intro r hr
    obtain ⟨h1, h2⟩ := recentSelection_mem hr
    exact ⟨h1, (inRecentWindow_iff _ _ _).mp h2⟩
  · intro r hr hw
    exact recentSelection_complete hr ((inRecentWindow_iff _ _ _).mpr hw)
  · unfold recentSelection
    exact le_trans (Nat.le_of_eq (List.length_take _ _)) (Nat.min_le_left _ _)

theorem c3_window_semantics_witness :
    exRow1 ∈ pastSelection [exRow1, exRow2] (todayStart exNow) 30 20 ∨
      (pastSelection [exRow1, exRow2] (todayStart exNow) 30 20).length = 20 :=
  (c3_window_semantics [exRow1, exRow2] exNow 30 90 20).2.2.1 exRow1 (by simp)
    ⟨⟨⟨2026, 1, 5⟩, 0⟩, by decide⟩

/-- Claim C4: every envelope returned by the two tool operations pairs
`total_count` with the length of `activities`; an empty match set yields
`success: true` with `total_count` 0 and no exception; every internal failure
is returned as a dict with `success: false` and an error string; and the
dispatcher returns a failure dict for unknown tool names instead of raising. -/
theorem c4_envelope_contract (db : Except (List Char) (List DBRow)) (now : DateTime)
    (rows : List DBRow) (daysBack daysAhead lim : Nat) (fname : List Char)
    (args : ToolArgs) :
    (∀ acts, (get_past_activities db now daysBack lim).activities = some acts →
      (get_past_activities db now daysBack lim).total_count = some acts.length) ∧
    (∀ acts, (get_recent_activities db now daysAhead lim).activities = some acts →
      (get_recent_activities db now daysAhead lim).total_count = some acts.length) ∧
    ((get_past_activities db now daysBack lim).success = true ↔ ∃ rs, db = .ok rs) ∧
    ((get_recent_activities db now daysAhead lim).success = true ↔ ∃ rs, db = .ok rs) ∧
    (pastSelection rows (todayStart now) daysBack lim = [] →
      (get_past_activities (.ok rows) now daysBack lim).success = true ∧
      (get_past_activities (.ok rows) now daysBack lim).total_count = some 0) ∧
    (recentSelection rows (todayStart now) daysAhead lim = [] →
      (get_recent_activities (.ok rows) now daysAhead lim).success = true ∧
      (get_recent_activities (.ok rows) now daysAhead lim).total_count = some 0) ∧
    (∀ e, db = .error e →
      (get_past_activities db now daysBack lim).success = false ∧
      (get_past_activities db now daysBack lim).error = some e ∧
      (get_recent_activities db now daysAhead lim).success = false ∧
      (get_recent_activities db now daysAhead lim).error = some e) ∧
    (fname ≠ nmPast → fname ≠ nmRecent →
      (execute_database_tool db now fname args).success = false ∧
      (execute_database_tool db now fname args).error = some (unknownToolMsg fname)) ∧
    (execute_database_tool db now nmPast args =
      get_past_activities db now (args.days_back.getD 30) (args.lim.getD 20)) ∧
    (execute_database_tool db now nmRecent args =
      get_recent_activities db now (args.days_ahead.getD 90) (args.lim.getD 20)) := by
  refine ⟨?_, ?_, ?_, ?_, ?_, ?_, ?_, ?_, ?_, ?_⟩
  · intro acts h
    cases db with
    | error e => simp [get_past_activities] at h
    | ok rs =>
      simp only [get_past_activities] at h ⊢
      injection h with h
      subst h
      rfl
  · intro acts h
    cases db with
    | error e => simp [get_recent_activities] at h
    | ok rs =>
      simp only [get_recent_activities] at h ⊢
      injection h with h
      subst h
      rfl
  · cases db with
    | error e => simp [get_past_activities]
    | ok rs => simp [get_past_activities]
  · cases db with
    | error e => simp [get_recent_activities]
    | ok rs => simp [get_recent_activities]
  · intro hsel
    constructor
    · rfl
    · simp only [get_past_activities, hsel]
      rfl
  · intro hsel
    constructor
    · rfl
    · simp only [get_recent_activities, hsel]
      rfl
  · intro e he
    subst he
    exact ⟨rfl, rfl, rfl, rfl⟩
  · intro h1 h2
    unfold execute_database_tool
    rw [if_neg h1, if_neg h2]
    exact ⟨rfl, rfl⟩
  · unfold execute_database_tool
    rw [if_pos rfl]
  · unfold execute_database_tool
    rw [if_neg (by decide), if_pos rfl]

theorem c4_envelope_contract_witness :
    (get_past_activities (.error exErr) exNow 30 20).success = false ∧
    (get_past_activities (.error exErr) exNow 30 20).error = some exErr ∧
    (get_recent_activities (.error exErr) exNow 90 20).success = false ∧
    (get_recent_activities (.error exErr) exNow 90 20).error = some exErr :=
  (c4_envelope_contract (.error exErr) exNow [] 30 90 20 nmPast
    ⟨none, none, none⟩).2.2.2.2.2.2.1 exErr rfl

/-- Claim C10: in every activity object returned by the two query operations
the field named `publish_date` holds the formatted (`"YYYY/MM/DD HH:MM"`)
effective date — the record's event date when one exists and the record's
publish date only otherwise — and is null exactly when both are absent; so on
a record carrying an event date the caller reading this field never sees the
actual publish date value. -/
theorem c10_publish_date_field (r : DBRow) :
    (formatActivityResult r).publish_date = (effDate r).map formatDT ∧
    ((formatActivityResult r).publish_date = none ↔
      r.event_date = none ∧ r.publish_date = none) ∧
    (∀ e, r.event_date = some e →
      (formatActivityResult r).publish_date = some (formatDT e)) := by
  refine ⟨rfl, ?_, ?_⟩
  · show (effDate r).map formatDT = none ↔ _
    unfold effDate
    cases he : r.event_date with
    | some e => simp [he]
    | none => cases hp : r.publish_date <;> simp
  · intro e he
    show (effDate r).map formatDT = _
    unfold effDate
    rw [he]
    rfl

theorem c10_publish_date_field_witness :
    (formatActivityResult exRow1).publish_date =
      some (formatDT ⟨⟨2026, 1, 5⟩, 0⟩) :=
  (c10_publish_date_field exRow1).2.2 ⟨⟨2026, 1, 5⟩, 0⟩ rfl

theorem tryPfbidAt_ne_nil {s t : List Char} (h : tryPfbidAt s = some t) : t ≠ [] := by
  unfold tryPfbidAt at h
  split at h
  · split at h
    · exact absurd h (by simp)
    · injection h with h
      subst h
      simp
  · exact absurd h (by simp)

theorem searchPfbid_ne_nil {u t : List Char} (h : searchPfbid u = some t) : t ≠ [] := by
  induction u with
  | nil => simp [searchPfbid] at h
  | cons c cs ih =>
    unfold searchPfbid at h
    cases htry : tryPfbidAt (c :: cs) with
    | some t2 =>
      rw [htry] at h
      injection h with h
      subst h
      exact tryPfbidAt_ne_nil htry
    | none =>
      rw [htry] at h
      exact ih h

theorem extract_facebook_id_ne_nil {u fb : List Char}
    (h : extract_facebook_id u = some fb) : fb ≠ [] := by
  unfold extract_facebook_id at h
  split at h
  · exact absurd h (by simp)
  · cases h1 : searchPfbid u with
    | some t =>
      rw [h1] at h
      injection h with h
      subst h
      exact searchPfbid_ne_nil h1
    | none =>
      rw [h1] at h
      cases h2 : searchReel u with
      | some ds =>
        rw [h2] at h
        injection h with h
        subst h
        simp
      | none =>
        rw [h2] at h
        cases h3 : searchPosts u with
        | some ds =>
          rw [h3] at h
          injection h with h
          subst h
          simp
        | none => rw [h3] at h; exact absurd h (by simp)

theorem cons_prefix_ne_nil {c : Char} {p s : List Char}
    (h : (c :: p).isPrefixOf s = true) : s ≠ [] := by
  cases s with
  | nil => simp [List.isPrefixOf] at h
  | cons a as => simp

theorem md5hex_length (s : List Char) : (md5hex s).length = 32 := by
  unfold md5hex
  simp

theorem md5hex_hex {s : List Char} : ∀ c ∈ md5hex s, isHexChar c = true := by
  intro c hc
  unfold md5hex at hc
  simp only [List.mem_map, List.mem_range] at hc
  obtain ⟨i, -, hi⟩ := hc
  subst hi
  have key : ∀ n : Nat, n < 16 → isHexChar (hexDigitChar n) = true := by decide
  exact key _ (Nat.mod_lt _ (by norm_num))

theorem resolve_post_id_unshaped {post : Post} {source : List Char}
    (h : idShaped post.id = false) :
    resolve_post_id post source =
      match extract_facebook_id post.url with
      | some fb => fb
      | none => "fallback_".data ++ (md5hex (hashInput post source)).take 16 := by
  unfold resolve_post_id
  cases hid : post.id with
  | none => rfl
  | some j =>
    cases j with
    | other => rfl
    | str s =>
      unfold idShaped at h
      rw [hid] at h
      dsimp only at h
      dsimp only
      rw [if_neg (by simp only [h]; exact Bool.false_ne_true)]

/-- Claim C7: `resolve_post_id` is a total deterministic function of the
record and source, following the stated priority — a string id already shaped
`pfbid*`/`reel_*`/`post_*` verbatim, else the pfbid token of the URL, else
`reel_` + digits of a `/reel/<digits>` segment, else `post_` + digits of a
`/posts/<digits>` segment, else `"fallback_"` plus the fixed 16-hex-char
truncation of a hash of the source concatenated with the url (or the title
when the url is absent); the result is always non-empty, and in the fallback
identical `(source, url-or-title)` inputs yield the identical id. -/
theorem c7_resolve_post_id (post : Post) (source : List Char) :
    (∀ s, post.id = some (.str s) → idShaped post.id = true →
      resolve_post_id post source = s) ∧
    (∀ t, idShaped post.id = false → searchPfbid post.url = some t →
      resolve_post_id post source = t) ∧
    (∀ ds, idShaped post.id = false → searchPfbid post.url = none →
      searchReel post.url = some ds →
      resolve_post_id post source = "reel_".data ++ ds) ∧
    (∀ ds, idShaped post.id = false → searchPfbid post.url = none →
      searchReel post.url = none → searchPosts post.url = some ds →
      resolve_post_id post source = "post_".data ++ ds) ∧
    (idShaped post.id = false → extract_facebook_id post.url = none →
      resolve_post_id post source =
        "fallback_".data ++ (md5hex (hashInput post source)).take 16 ∧
      ((md5hex (hashInput post source)).take 16).length = 16 ∧
      (∀ c ∈ (md5hex (hashInput post source)).take 16, isHexChar c = true)) ∧
    resolve_post_id post source ≠ [] ∧
    (∀ post2, idShaped post.id = false → idShaped post2.id = false →
      extract_facebook_id post.url = none → extract_facebook_id post2.url = none →
      hashInput post source = hashInput post2 source →
      resolve_post_id post source = resolve_post_id post2 source) := by
  have hurlne : ∀ t, searchPfbid post.url = some t → post.url.isEmpty = false := by
    intro t ht
    cases hu : post.url with
    | nil => rw [hu] at ht; simp [searchPfbid] at ht
    | cons a as => rfl
  have hfb_pf : ∀ t, searchPfbid post.url = some t →
      extract_facebook_id post.url = some t := by
    intro t ht
    unfold extract_facebook_id
    rw [if_neg (by rw [hurlne t ht]; exact Bool.false_ne_true), ht]
  refine ⟨?_, ?_, ?_, ?_, ?_, ?_, ?_⟩
  · intro s hs hshape
    unfold resolve_post_id
    rw [hs]
    unfold idShaped at hshape
    rw [hs] at hshape
    dsimp only at hshape
    dsimp only
    rw [if_pos (by simpa using hshape)]
  · intro t hns ht
    rw [resolve_post_id_unshaped hns, hfb_pf t ht]
  · intro ds hns h1 h2
    have hurl : post.url.isEmpty = false := by
      cases hu : post.url with
      | nil => rw [hu] at h2; simp [searchReel] at h2
      | cons a as => rfl
    rw [resolve_post_id_unshaped hns]
    unfold extract_facebook_id
    rw [if_neg (by rw [hurl]; exact Bool.false_ne_true), h1, h2]
  · intro ds hns h1 h2 h3
    have hurl : post.url.isEmpty = false := by
      cases hu : post.url with
      | nil => rw [hu] at h3; simp [searchPosts] at h3
      | cons a as => rfl
    rw [resolve_post_id_unshaped hns]
    unfold extract_facebook_id
    rw [if_neg (by rw [hurl]; exact Bool.false_ne_true), h1, h2, h3]
  · intro hns hx
    refine ⟨by rw [resolve_post_id_unshaped hns, hx], ?_, ?_⟩
    · rw [List.length_take, md5hex_length]
      rfl
    · intro c hc
      exact md5hex_hex c (List.mem_of_mem_take hc)
  · by_cases hsh : idShaped post.id = true
    · unfold idShaped at hsh
      cases hid : post.id with
      | none => rw [hid] at hsh; simp at hsh
      | some j =>
        cases j with
        | other => rw [hid] at hsh; simp at hsh
        | str s =>
          rw [hid] at hsh
          dsimp only at hsh
          have hres : resolve_post_id post source = s := by
            unfold resolve_post_id
            rw [hid]
            dsimp only
            rw [if_pos (by simpa using hsh)]
          rw [hres]
          simp only [Bool.or_eq_true] at hsh
          rcases hsh with (hp | hp) | hp <;> exact cons_prefix_ne_nil hp
    · rw [resolve_post_id_unshaped (by simpa using hsh)]
      cases hx : extract_facebook_id post.url with
      | some fb => exact extract_facebook_id_ne_nil hx
      | none => simp
  · intro post2 h1 h2 hx1 hx2 hhash
    rw [resolve_post_id_unshaped h1, resolve_post_id_unshaped h2, hx1, hx2, hhash]

theorem c7_resolve_post_id_witness :
    resolve_post_id exPostFallback exSource =
      "fallback_".data ++ (md5hex (hashInput exPostFallback exSource)).take 16 ∧
    ((md5hex (hashInput exPostFallback exSource)).take 16).length = 16 ∧
    (∀ c ∈ (md5hex (hashInput exPostFallback exSource)).take 16,
      isHexChar c = true) :=
  (c7_resolve_post_id exPostFallback exSource).2.2.2.2.1 rfl rfl

theorem dropWhile_eq_self_of_head {p : Char → Bool} {s : List Char}
    (h : ∀ c, s.head? = some c → p c = false) : s.dropWhile p = s := by
  cases s with
  | nil => rfl
  | cons c cs => simp [List.dropWhile_cons, h c rfl]

theorem stripChars_of_noSpace {s : List Char}
    (h : ∀ c ∈ s, isSpaceChar c = false) : stripChars s = s := by
  unfold stripChars
  rw [dropWhile_eq_self_of_head (fun c hc => h c (List.mem_of_mem_head? hc))]
  rw [dropWhile_eq_self_of_head
    (fun c hc => h c (List.mem_reverse.mp (List.mem_of_mem_head? hc)))]
  exact List.reverse_reverse s

theorem longContent_length : longContent.length = 501 := by
  unfold longContent
  exact List.length_replicate 501 'a'

set_option maxRecDepth 8192 in
/-- Counterexample to claim C8 as stated: a stored content of 501 characters
is surfaced by `get_past_activities` as a 503-character string (the
500-character slice plus the three-character ellipsis), which exceeds 500. -/
theorem c8_counterexample :
    ∃ acts, (get_past_activities (.ok [rowLong]) exNow 30 20).activities = some acts ∧
      ∃ a ∈ acts, ∃ s, a.content = some s ∧ ¬ s.length ≤ 500 := by
  have hwin : inPastWindow (todayStart exNow) 30 rowLong = true := by decide
  have hf : [rowLong].filter (inPastWindow (todayStart exNow) 30) = [rowLong] := by
    rw [List.filter_cons, hwin]
    rfl
  have hsel : pastSelection [rowLong] (todayStart exNow) 30 20 = [rowLong] := by
    unfold pastSelection
    rw [hf, List.mergeSort_singleton]
    rfl
  have hacts : (get_past_activities (.ok [rowLong]) exNow 30 20).activities =
      some [formatActivityResult rowLong] := by
    show some ((pastSelection [rowLong] (todayStart exNow) 30 20).map formatActivityResult) = _
    rw [hsel]
    rfl
  refine ⟨[formatActivityResult rowLong], hacts, formatActivityResult rowLong,
    by simp, longContent.take 500 ++ "...".data, ?_, ?_⟩
  · show (match rowLong.content with
      | some s => if s.length > 500 then some (s.take 500 ++ "...".data) else some s
      | none => none) = _
    have h1 : rowLong.content = some longContent := rfl
    rw [h1]
    dsimp only
    rw [if_pos (by rw [longContent_length]; omega)]
  · rw [List.length_append, List.length_take, longContent_length]
    simp

/-- Claim C8 (amended): content surfaced by the query operations is bounded
by 503 characters — the 500-character preview plus the appended `"..."`
ellipsis — with contents of at most 500 characters passed through unchanged;
the ingestion stores the (stripped) content in full, with no length cap. -/
theorem c8_content_truncation (r : DBRow) (post : Post) (source : List Char)
    (sysOffsetMin : Int) (nowYear : Nat) :
    (∀ s, (formatActivityResult r).content = some s → s.length ≤ 503) ∧
    (∀ s, r.content = some s → s.length ≤ 500 →
      (formatActivityResult r).content = some s) ∧
    ((prepare_activity_data post source sysOffsetMin nowYear).content =
      stripChars (post.content.getD [])) ∧
    (∀ n : Nat, ∃ p2 : Post,
      ((prepare_activity_data p2 source sysOffsetMin nowYear).content).length > n) := by
  refine ⟨?_, ?_, rfl, ?_⟩
  · intro s hs
    have hs2 : (match r.content with
        | some s0 => if s0.length > 500 then some (s0.take 500 ++ "...".data) else some s0
        | none => none) = some s := hs
    cases hc : r.content with
    | none => rw [hc] at hs2; exact absurd hs2 (by simp)
    | some s0 =>
      rw [hc] at hs2
      dsimp only at hs2
      by_cases hlen : s0.length > 500
      · rw [if_pos hlen] at hs2
        injection hs2 with hs2
        subst hs2
        calc (s0.take 500 ++ "...".data).length
            = (s0.take 500).length + ("...".data).length := List.length_append _ _
          _ ≤ 500 + 3 := by
              have h2 : (s0.take 500).length ≤ 500 := by
                rw [List.length_take]
                omega
              have h3 : ("...".data).length = 3 := rfl
              omega
          _ ≤ 503 := by norm_num
      · rw [if_neg hlen] at hs2
        injection hs2 with hs2
        subst hs2
        omega
  · intro s hsc hlen
    show (match r.content with
      | some s0 => if s0.length > 500 then some (s0.take 500 ++ "...".data) else some s0
      | none => none) = some s
    rw [hsc]
    dsimp only
    rw [if_neg (by omega)]
  · intro n
    refine ⟨postRep n, ?_⟩
    show (stripChars ((postRep n).content.getD [])).length > n
    have hc : (postRep n).content = some (List.replicate (n + 1) 'b') := rfl
    rw [hc, Option.getD_some]
    rw [stripChars_of_noSpace (by
      intro c hcm
      rw [List.eq_of_mem_replicate hcm]
      rfl)]
    rw [List.length_replicate]
    omega

theorem c8_content_truncation_witness :
    (formatActivityResult exRow1).content = some ("hello".data) :=
  (c8_content_truncation exRow1 exPostFallback exSource 480 2026).2.1
    ("hello".data) rfl (by decide)

/-! ## Containment lemmas for the ISO-slash and ROC-full patterns -/

theorem toNat_of_isDigit {c : Char} (h : c.isDigit = true) :
    48 ≤ c.toNat ∧ c.toNat ≤ 57 := by
  simp only [Char.isDigit, ge_iff_le, Bool.and_eq_true, decide_eq_true_eq] at h
  exact ⟨h.1, h.2⟩

theorem char_eq_of_toNat {a b : Char} (h : a.toNat = b.toNat) : a = b :=
  Char.eq_of_val_eq (UInt32.ext h)

theorem getLast?_append_right {l1 l2 : List Char} (h : l2 ≠ []) :
    (l1 ++ l2).getLast? = l2.getLast? := by
  rw [List.getLast?_append]
  cases h2 : l2.getLast? with
  | none => exact absurd (List.getLast?_eq_none_iff.mp h2) h
  | some c => rfl

theorem getLast?_cons_of_ne {c : Char} {l : List Char} (h : l ≠ []) :
    (c :: l).getLast? = l.getLast? := by
  exact @getLast?_append_right [c] l h

theorem yds_take_of_band {yds : List Char} (hlen : yds.length = 4)
    (hdig : ∀ c ∈ yds, c.isDigit = true)
    (hlo : 2020 ≤ digitsVal yds) (hhi : digitsVal yds ≤ 2030) :
    yds.take 2 = ['2', '0'] := by
  cases yds with
  | nil => simp at hlen
  | cons a t1 =>
    cases t1 with
    | nil => simp at hlen
    | cons b t2 =>
      cases t2 with
      | nil => simp at hlen
      | cons c t3 =>
        cases t3 with
        | nil => simp at hlen
        | cons e t4 =>
          cases t4 with
          | cons f t5 => simp at hlen
          | nil =>
            have hva := toNat_of_isDigit (hdig a (by simp))
            have hvb := toNat_of_isDigit (hdig b (by simp))
            have hvc := toNat_of_isDigit (hdig c (by simp))
            have hve := toNat_of_isDigit (hdig e (by simp))
            have hv : digitsVal [a, b, c, e] =
                (((0 * 10 + (a.toNat - 48)) * 10 + (b.toNat - 48)) * 10 +
                  (c.toNat - 48)) * 10 + (e.toNat - 48) := rfl
            rw [hv] at hlo hhi
            have ha2 : a.toNat = 50 := by omega
            have hb0 : b.toNat = 48 := by omega
            have hae : a = '2' := char_eq_of_toNat (by rw [ha2]; rfl)
            have hbe : b = '0' := char_eq_of_toNat (by rw [hb0]; rfl)
            subst hae
            subst hbe
            rfl

theorem headNotDigit_cons {c : Char} {r : List Char} (h : c.isDigit = false) :
    headNotDigit (c :: r) := by
  intro x hx
  injection hx with hx
  subst hx
  exact h

theorem not_space_of_digit {c : Char} (h : c.isDigit = true) :
    isSpaceChar c = false := by
  obtain ⟨h1, h2⟩ := toNat_of_isDigit h
  unfold isSpaceChar
  by_contra hs
  simp only [Bool.or_eq_true, decide_eq_true_eq, Bool.not_eq_false] at hs
  rcases hs with ((((((hc | hc) | hc) | hc) | hc) | hc) | hc) | hc <;>
    (subst hc; revert h1 h2; decide)

theorem skipSpc_eq_self_of_head {l : List Char}
    (h : ∀ c, l.head? = some c → isSpaceChar c = false) : skipSpc l = l := by
  cases l with
  | nil => rfl
  | cons c cs =>
    unfold skipSpc
    rw [h c rfl]
    simp

/-- The ISO-slash matcher succeeds on a well-formed date token at the head of
the string, capturing exactly its three numeric groups. -/
theorem tryIsoSlash_at_target {yds mds dds post : List Char}
    (hydig : ∀ c ∈ yds, c.isDigit = true) (hylen : yds.length = 4)
    (hytake : yds.take 2 = ['2', '0'])
    (hmdig : ∀ c ∈ mds, c.isDigit = true)
    (hmlen : 1 ≤ mds.length ∧ mds.length ≤ 2)
    (hddig : ∀ c ∈ dds, c.isDigit = true)
    (hdlen : 1 ≤ dds.length ∧ dds.length ≤ 2)
    (hpost : headNotDigit post) :
    tryIsoSlash (yds ++ '/' :: (mds ++ '/' :: (dds ++ post))) =
      some ((digitsVal yds, digitsVal mds, digitsVal dds), dds.getLastD '0', post) := by
  unfold tryIsoSlash
  have h1 : takeDigits (yds ++ '/' :: (mds ++ '/' :: (dds ++ post))) =
      (yds, '/' :: (mds ++ '/' :: (dds ++ post))) :=
    takeDigits_append_digits _ hydig (headNotDigit_cons rfl)
  rw [h1]
  dsimp only
  rw [if_pos ⟨hylen, hytake⟩]
  have h2 : takeDigits (mds ++ '/' :: (dds ++ post)) =
      (mds, '/' :: (dds ++ post)) :=
    takeDigits_append_digits _ hmdig (headNotDigit_cons rfl)
  rw [h2]
  dsimp only
  rw [if_pos hmlen]
  have h3 : takeDigits (dds ++ post) = (dds, post) :=
    takeDigits_append_digits _ hddig hpost
  rw [h3]
  dsimp only
  rw [if_pos hdlen]
  simp

/-- The ROC-full matcher succeeds on a well-formed `NNN年MM月DD日` token at
the head of the string, capturing exactly its three numeric groups. -/
theorem tryRocFull_at_target {nds mds dds : List Char}
    (hndig : ∀ c ∈ nds, c.isDigit = true)
    (hnlen : 2 ≤ nds.length ∧ nds.length ≤ 3)
    (hmdig : ∀ c ∈ mds, c.isDigit = true)
    (hmlen : 1 ≤ mds.length ∧ mds.length ≤ 2)
    (hddig : ∀ c ∈ dds, c.isDigit = true)
    (hdlen : 1 ≤ dds.length ∧ dds.length ≤ 2) (post : List Char) :
    tryRocFull (nds ++ '年' :: (mds ++ '月' :: (dds ++ '日' :: post))) =
      some ((digitsVal nds, digitsVal mds, digitsVal dds), '日', post) := by
  have hmne : mds ≠ [] := by
    intro h
    rw [h] at hmlen
    simp at hmlen
  have hdne : dds ≠ [] := by
    intro h
    rw [h] at hdlen
    simp at hdlen
  have hmhead : ∀ c, (mds ++ '月' :: (dds ++ '日' :: post)).head? = some c →
      isSpaceChar c = false := by
    obtain ⟨m0, mrest, hm0⟩ := List.exists_cons_of_ne_nil hmne
    subst hm0
    intro c hc
    injection hc with hc
    subst hc
    exact not_space_of_digit (hmdig m0 (by simp))
  have hdhead : ∀ c, (dds ++ '日' :: post).head? = some c →
      isSpaceChar c = false := by
    obtain ⟨d0, drest, hd0⟩ := List.exists_cons_of_ne_nil hdne
    subst hd0
    intro c hc
    injection hc with hc
    subst hc
    exact not_space_of_digit (hddig d0 (by simp))
  unfold tryRocFull
  have h1 : takeDigits (nds ++ '年' :: (mds ++ '月' :: (dds ++ '日' :: post))) =
      (nds, '年' :: (mds ++ '月' :: (dds ++ '日' :: post))) :=
    takeDigits_append_digits _ hndig (headNotDigit_cons rfl)
  rw [h1]
  dsimp only
  rw [if_pos hnlen]
  have h2 : skipSpc ('年' :: (mds ++ '月' :: (dds ++ '日' :: post))) =
      '年' :: (mds ++ '月' :: (dds ++ '日' :: post)) :=
    skipSpc_eq_self_of_head (fun c hc => by
      injection hc with hc
      subst hc
      rfl)
  rw [h2]
  dsimp only
  rw [if_pos rfl]
  rw [skipSpc_eq_self_of_head hmhead]
  have h3 : takeDigits (mds ++ '月' :: (dds ++ '日' :: post)) =
      (mds, '月' :: (dds ++ '日' :: post)) :=
    takeDigits_append_digits _ hmdig (headNotDigit_cons rfl)
  rw [h3]
  dsimp only
  rw [if_pos hmlen]
  have h4 : skipSpc ('月' :: (dds ++ '日' :: post)) = '月' :: (dds ++ '日' :: post) :=
    skipSpc_eq_self_of_head (fun c hc => by
      injection hc with hc
      subst hc
      rfl)
  rw [h4]
  dsimp only
  rw [if_pos rfl]
  rw [skipSpc_eq_self_of_head hdhead]
  have h5 : takeDigits (dds ++ '日' :: post) = (dds, '日' :: post) :=
    takeDigits_append_digits _ hddig (headNotDigit_cons rfl)
  rw [h5]
  dsimp only
  rw [if_pos hdlen]
  have h6 : skipSpc ('日' :: post) = '日' :: post :=
    skipSpc_eq_self_of_head (fun c hc => by
      injection hc with hc
      subst hc
      rfl)
  rw [h6]
  simp

/-- A successful ISO-slash match that starts strictly before a 4-digit-year
token boundary stays strictly before it: the remainder still carries the
whole token, it is non-empty up to the boundary, and the character just
before the boundary is unchanged. -/
theorem tryIsoSlash_straddle {yds rest : List Char} (a : List Char) (ha : a ≠ [])
    (hydig : ∀ c ∈ yds, c.isDigit = true) (hylen : yds.length = 4)
    (hrest : headNotDigit rest)
    {g : Nat × Nat × Nat} {lc : Char} {out : List Char}
    (h : tryIsoSlash (a ++ (yds ++ rest)) = some (g, lc, out)) :
    ∃ a2, out = a2 ++ (yds ++ rest) ∧ a2 ≠ [] ∧ a2.getLast? = a.getLast? ∧
      a2.length < a.length := by
  have hlen0 := tryIsoSlash_consumes _ _ _ _ h
  by_cases hall : ∀ c ∈ a, c.isDigit = true
  · exfalso
    unfold tryIsoSlash at h
    dsimp only at h
    have h1 : takeDigits (a ++ (yds ++ rest)) = (a ++ yds, rest) := by
      rw [← List.append_assoc]
      exact takeDigits_append_digits _ (by
        intro c hc
        rcases List.mem_append.mp hc with hc | hc
        · exact hall c hc
        · exact hydig c hc) hrest
    rw [h1] at h
    dsimp only at h
    rw [if_neg (by
      rintro ⟨hl, -⟩
      rw [List.length_append, hylen] at hl
      cases a with
      | nil => exact ha rfl
      | cons x xs => rw [List.length_cons] at hl; omega)] at h
    exact absurd h (by simp)
  push_neg at hall
  obtain ⟨c0, hc0mem, hc0⟩ := hall
  have hc0f : c0.isDigit = false := by
    cases hdig : c0.isDigit
    · rfl
    · exact absurd hdig hc0
  have hqne : (takeDigits a).2 ≠ [] := takeDigits_rest_ne_of_nonDigit hc0mem hc0f
  have hsplit : takeDigits (a ++ (yds ++ rest)) =
      ((takeDigits a).1, (takeDigits a).2 ++ (yds ++ rest)) :=
    takeDigits_append_of_rest _ hqne
  unfold tryIsoSlash at h
  dsimp only at h
  rw [hsplit] at h
  dsimp only at h
  split at h
  all_goals try (exact Option.noConfusion h)
  obtain ⟨q0, q1, hq⟩ := List.exists_cons_of_ne_nil hqne
  rw [hq, List.cons_append] at h
  dsimp only at h
  split at h
  all_goals try (exact Option.noConfusion h)
  by_cases hall2 : ∀ c ∈ q1, c.isDigit = true
  · exfalso
    have h2 : takeDigits (q1 ++ (yds ++ rest)) = (q1 ++ yds, rest) := by
      rw [← List.append_assoc]
      exact takeDigits_append_digits _ (by
        intro c hc
        rcases List.mem_append.mp hc with hc | hc
        · exact hall2 c hc
        · exact hydig c hc) hrest
    rw [h2] at h
    dsimp only at h
    rw [if_neg (by
      rintro ⟨-, hl2⟩
      rw [List.length_append, hylen] at hl2
      omega)] at h
    exact absurd h (by simp)
  push_neg at hall2
  obtain ⟨c1, hc1mem, hc1⟩ := hall2
  have hc1f : c1.isDigit = false := by
    cases hdig : c1.isDigit
    · rfl
    · exact absurd hdig hc1
  have hq2ne : (takeDigits q1).2 ≠ [] := takeDigits_rest_ne_of_nonDigit hc1mem hc1f
  have hsplit2 : takeDigits (q1 ++ (yds ++ rest)) =
      ((takeDigits q1).1, (takeDigits q1).2 ++ (yds ++ rest)) :=
    takeDigits_append_of_rest _ hq2ne
  rw [hsplit2] at h
  dsimp only at h
  split at h
  all_goals try (exact Option.noConfusion h)
  obtain ⟨q2, q3, hq2⟩ := List.exists_cons_of_ne_nil hq2ne
  rw [hq2, List.cons_append] at h
  dsimp only at h
  split at h
  all_goals try (exact Option.noConfusion h)
  by_cases hall3 : ∀ c ∈ q3, c.isDigit = true
  · exfalso
    have h3 : takeDigits (q3 ++ (yds ++ rest)) = (q3 ++ yds, rest) := by
      rw [← List.append_assoc]
      exact takeDigits_append_digits _ (by
        intro c hc
        rcases List.mem_append.mp hc with hc | hc
        · exact hall3 c hc
        · exact hydig c hc) hrest
    rw [h3] at h
    dsimp only at h
    rw [if_neg (by
      rintro ⟨-, hl3⟩
      rw [List.length_append, hylen] at hl3
      omega)] at h
    exact absurd h (by simp)
  push_neg at hall3
  obtain ⟨c2, hc2mem, hc2⟩ := hall3
  have hc2f : c2.isDigit = false := by
    cases hdig : c2.isDigit
    · rfl
    · exact absurd hdig hc2
  have hq4ne : (takeDigits q3).2 ≠ [] := takeDigits_rest_ne_of_nonDigit hc2mem hc2f
  have hsplit3 : takeDigits (q3 ++ (yds ++ rest)) =
      ((takeDigits q3).1, (takeDigits q3).2 ++ (yds ++ rest)) :=
    takeDigits_append_of_rest _ hq4ne
  rw [hsplit3] at h
  dsimp only at h
  split at h
  all_goals try (exact Option.noConfusion h)
  simp only [Option.some.injEq, Prod.mk.injEq] at h
  obtain ⟨-, -, hout⟩ := h
  refine ⟨(takeDigits q3).2, hout.symm, hq4ne, ?_, ?_⟩
  · have hq1ne : q1 ≠ [] := by
      intro hn
      rw [hn] at hq2ne
      simp [takeDigits] at hq2ne
    have hq3ne : q3 ≠ [] := by
      intro hn
      rw [hn] at hq4ne
      simp [takeDigits] at hq4ne
    have e1 : a.getLast? = (takeDigits a).2.getLast? := by
      conv_lhs => rw [← takeDigits_append_eq a]
      exact getLast?_append_right hqne
    have e3 : (takeDigits a).2.getLast? = q1.getLast? := by
      rw [hq]
      exact getLast?_cons_of_ne hq1ne
    have e4 : q1.getLast? = (takeDigits q1).2.getLast? := by
      conv_lhs => rw [← takeDigits_append_eq q1]
      exact getLast?_append_right hq2ne
    have e5 : (takeDigits q1).2.getLast? = q3.getLast? := by
      rw [hq2]
      exact getLast?_cons_of_ne hq3ne
    have e6 : q3.getLast? = (takeDigits q3).2.getLast? := by
      conv_lhs => rw [← takeDigits_append_eq q3]
      exact getLast?_append_right hq4ne
    rw [e1, e3, e4, e5, e6]
  · rw [hout.symm] at hlen0
    simp only [List.length_append] at hlen0
    omega

theorem digit_ne_of_big {c k : Char} (h : c.isDigit = true) (hk : 57 < k.toNat) :
    c ≠ k := by
  intro he
  subst he
  obtain ⟨h1, h2⟩ := toNat_of_isDigit h
  omega

/-- A successful ROC-full match that starts strictly before a 3-digit-year
token boundary stays strictly before it (pattern 1 has no lookbehind, so the
match may end exactly at the boundary). -/
theorem tryRocFull_straddle {nds rest : List Char} (a : List Char) (ha : a ≠ [])
    (hndig : ∀ c ∈ nds, c.isDigit = true) (hnlen : nds.length = 3)
    (hrest : headNotDigit rest)
    {g : Nat × Nat × Nat} {lc : Char} {out : List Char}
    (h : tryRocFull (a ++ (nds ++ rest)) = some (g, lc, out)) :
    ∃ a2, out = a2 ++ (nds ++ rest) ∧ a2.length < a.length := by
  have hlen0 := tryRocFull_consumes _ _ _ _ h
  have hnne : nds ≠ [] := by
    intro hn
    rw [hn] at hnlen
    simp at hnlen
  obtain ⟨n0, nds1, hn0⟩ := List.exists_cons_of_ne_nil hnne
  have hn0dig : n0.isDigit = true := hndig n0 (by rw [hn0]; simp)
  have hTns : ∀ c, (nds ++ rest).head? = some c → isSpaceChar c = false := by
    rw [hn0]
    intro c hc
    injection hc with hc
    subst hc
    exact not_space_of_digit hn0dig
  by_cases hall : ∀ c ∈ a, c.isDigit = true
  · exfalso
    unfold tryRocFull at h
    dsimp only at h
    have h1 : takeDigits (a ++ (nds ++ rest)) = (a ++ nds, rest) := by
      rw [← List.append_assoc]
      exact takeDigits_append_digits _ (by
        intro c hc
        rcases List.mem_append.mp hc with hc | hc
        · exact hall c hc
        · exact hndig c hc) hrest
    rw [h1] at h
    dsimp only at h
    rw [if_neg (by
      rintro ⟨-, hl⟩
      rw [List.length_append, hnlen] at hl
      cases a with
      | nil => exact ha rfl
      | cons x xs => rw [List.length_cons] at hl; omega)] at h
    exact absurd h (by simp)
  push_neg at hall
  obtain ⟨c0, hc0mem, hc0⟩ := hall
  have hc0f : c0.isDigit = false := by
    cases hdig : c0.isDigit
    · rfl
    · exact absurd hdig hc0
  have hqne : (takeDigits a).2 ≠ [] := takeDigits_rest_ne_of_nonDigit hc0mem hc0f
  unfold tryRocFull at h
  dsimp only at h
  rw [takeDigits_append_of_rest _ hqne] at h
  dsimp only at h
  split at h
  all_goals try (exact Option.noConfusion h)
  rw [skipSpc_append _ hTns] at h
  cases hsq : skipSpc (takeDigits a).2 with
  | nil =>
    exfalso
    rw [hsq, List.nil_append, hn0, List.cons_append] at h
    dsimp only at h
    rw [if_neg (digit_ne_of_big hn0dig (by decide))] at h
    exact Option.noConfusion h
  | cons u0 u1 =>
    rw [hsq, List.cons_append] at h
    dsimp only at h
    split at h
    all_goals try (exact Option.noConfusion h)
    rw [skipSpc_append _ hTns] at h
    by_cases hall2 : ∀ c ∈ skipSpc u1, c.isDigit = true
    · exfalso
      have h2 : takeDigits (skipSpc u1 ++ (nds ++ rest)) = (skipSpc u1 ++ nds, rest) := by
        rw [← List.append_assoc]
        exact takeDigits_append_digits _ (by
          intro c hc
          rcases List.mem_append.mp hc with hc | hc
          · exact hall2 c hc
          · exact hndig c hc) hrest
      rw [h2] at h
      dsimp only at h
      rw [if_neg (by
        rintro ⟨-, hl⟩
        rw [List.length_append, hnlen] at hl
        omega)] at h
      exact Option.noConfusion h
    push_neg at hall2
    obtain ⟨c1, hc1mem, hc1⟩ := hall2
    have hc1f : c1.isDigit = false := by
      cases hdig : c1.isDigit
      · rfl
      · exact absurd hdig hc1
    have hq2ne : (takeDigits (skipSpc u1)).2 ≠ [] :=
      takeDigits_rest_ne_of_nonDigit hc1mem hc1f
    rw [takeDigits_append_of_rest _ hq2ne] at h
    dsimp only at h
    split at h
    all_goals try (exact Option.noConfusion h)
    rw [skipSpc_append _ hTns] at h
    cases hsq2 : skipSpc (takeDigits (skipSpc u1)).2 with
    | nil =>
      exfalso
      rw [hsq2, List.nil_append, hn0, List.cons_append] at h
      dsimp only at h
      rw [if_neg (digit_ne_of_big hn0dig (by decide))] at h
      exact Option.noConfusion h
    | cons v0 v1 =>
      rw [hsq2, List.cons_append] at h
      dsimp only at h
      split at h
      all_goals try (exact Option.noConfusion h)
      rw [skipSpc_append _ hTns] at h
      by_cases hall3 : ∀ c ∈ skipSpc v1, c.isDigit = true
      · exfalso
        have h3 : takeDigits (skipSpc v1 ++ (nds ++ rest)) = (skipSpc v1 ++ nds, rest) := by
          rw [← List.append_assoc]
          exact takeDigits_append_digits _ (by
            intro c hc
            rcases List.mem_append.mp hc with hc | hc
            · exact hall3 c hc
            · exact hndig c hc) hrest
        rw [h3] at h
        dsimp only at h
        rw [if_neg (by
          rintro ⟨-, hl⟩
          rw [List.length_append, hnlen] at hl
          omega)] at h
        exact Option.noConfusion h
      push_neg at hall3
      obtain ⟨c2, hc2mem, hc2⟩ := hall3
      have hc2f : c2.isDigit = false := by
        cases hdig : c2.isDigit
        · rfl
        · exact absurd hdig hc2
      have hq3ne : (takeDigits (skipSpc v1)).2 ≠ [] :=
        takeDigits_rest_ne_of_nonDigit hc2mem hc2f
      rw [takeDigits_append_of_rest _ hq3ne] at h
      dsimp only at h
      split at h
      all_goals try (exact Option.noConfusion h)
      rw [skipSpc_append _ hTns] at h
      cases hsq3 : skipSpc (takeDigits (skipSpc v1)).2 with
      | nil =>
        exfalso
        rw [hsq3, List.nil_append, hn0, List.cons_append] at h
        dsimp only at h
        rw [if_neg (digit_ne_of_big hn0dig (by decide))] at h
        exact Option.noConfusion h
      | cons w0 w1 =>
        rw [hsq3, List.cons_append] at h
        dsimp only at h
        split at h
        all_goals try (exact Option.noConfusion h)
        simp only [Option.some.injEq, Prod.mk.injEq] at h
        obtain ⟨-, -, hout⟩ := h
        refine ⟨w1, hout.symm, ?_⟩
        rw [hout.symm] at hlen0
        simp only [List.length_append] at hlen0
        have hw1 : w1.length + 1 ≤ (skipSpc (takeDigits (skipSpc v1)).2).length := by
          rw [hsq3]
          simp
        have hs3 := skipSpc_length_le (takeDigits (skipSpc v1)).2
        omega

/-- Every text of the shape `pre ++ YYYY/MM/DD ++ post` — year in four
digits, month and day in one or two digits, no digit adjacent on either side
— makes the pattern 3 scan emit the `(year, month, day)` group triple. -/
theorem scanIsoSlashFrom_contains
    (yds mds dds post : List Char)
    (hydig : ∀ c ∈ yds, c.isDigit = true) (hylen : yds.length = 4)
    (hytake : yds.take 2 = ['2', '0'])
    (hmdig : ∀ c ∈ mds, c.isDigit = true) (hmlen : 1 ≤ mds.length ∧ mds.length ≤ 2)
    (hddig : ∀ c ∈ dds, c.isDigit = true) (hdlen : 1 ≤ dds.length ∧ dds.length ≤ 2)
    (hpost : headNotDigit post) :
    ∀ (pre : List Char) (prev : Option Char), goodTail pre prev →
      (digitsVal yds, digitsVal mds, digitsVal dds) ∈
        scanIsoSlashFrom (pre ++ (yds ++ '/' :: (mds ++ '/' :: (dds ++ post)))) prev := by
  have hrestnd : headNotDigit ('/' :: (mds ++ '/' :: (dds ++ post))) :=
    headNotDigit_cons rfl
  have hyne : yds ≠ [] := by
    intro hn
    rw [hn] at hylen
    simp at hylen
  obtain ⟨y0, yrest, hy0⟩ := List.exists_cons_of_ne_nil hyne
  have hT : yds ++ '/' :: (mds ++ '/' :: (dds ++ post)) =
      y0 :: (yrest ++ '/' :: (mds ++ '/' :: (dds ++ post))) := by
    rw [hy0]
    rfl
  suffices H : ∀ n (pre : List Char) (prev : Option Char), pre.length = n →
      goodTail pre prev →
      (digitsVal yds, digitsVal mds, digitsVal dds) ∈
        scanIsoSlashFrom (pre ++ (yds ++ '/' :: (mds ++ '/' :: (dds ++ post)))) prev by
    intro pre prev hgt
    exact H pre.length pre prev rfl hgt
  intro n
  induction n using Nat.strong_induction_on with
  | _ n IH =>
    intro pre prev hlen hgt
    cases pre with
    | nil =>
      have hlb : lbNotDigit prev = true := by
        unfold goodTail at hgt
        simpa using hgt
      rw [List.nil_append, hT, scanIsoSlashFrom_cons, if_pos hlb, ← hT,
        tryIsoSlash_at_target hydig hylen hytake hmdig hmlen hddig hdlen hpost]
      exact List.mem_cons_self _ _
    | cons p0 ps =>
      have hlen2 : ps.length < n := by
        rw [← hlen]
        simp
      have hgt2 : goodTail ps (some p0) := by
        unfold goodTail at hgt ⊢
        cases hps : ps.getLast? with
        | some c =>
          have hpsne : ps ≠ [] := by
            intro hn2
            rw [hn2] at hps
            simp at hps
          rw [getLast?_cons_of_ne hpsne, hps] at hgt
          exact hgt
        | none =>
          have hpsnil : ps = [] := List.getLast?_eq_none_iff.mp hps
          subst hpsnil
          simp only [List.getLast?_singleton] at hgt
          simp [lbNotDigit, hgt]
      rw [List.cons_append, scanIsoSlashFrom_cons]
      by_cases hlb : lbNotDigit prev = true
      · rw [if_pos hlb]
        cases htry : tryIsoSlash (p0 :: (ps ++ (yds ++ '/' :: (mds ++ '/' :: (dds ++ post))))) with
        | none =>
          dsimp only
          exact IH ps.length hlen2 ps (some p0) rfl hgt2
        | some t =>
          obtain ⟨g2, lc2, out2⟩ := t
          dsimp only
          have hstr := tryIsoSlash_straddle (p0 :: ps) (by simp) hydig hylen hrestnd
            (by rw [List.cons_append]; exact htry)
          obtain ⟨a2, hout2, ha2ne, hlast, hlt⟩ := hstr
          rw [hout2]
          apply List.mem_cons_of_mem
          have hgt3 : goodTail a2 (some lc2) := by
            unfold goodTail
            cases ha2l : a2.getLast? with
            | none => exact absurd (List.getLast?_eq_none_iff.mp ha2l) ha2ne
            | some c =>
              unfold goodTail at hgt
              rw [ha2l] at hlast
              rw [← hlast] at hgt
              exact hgt
          exact IH a2.length (by
            rw [← hlen]
            calc a2.length < (p0 :: ps).length := hlt
              _ = ps.length + 1 := by simp) a2 (some lc2) rfl hgt3
      · rw [if_neg hlb]
        exact IH ps.length hlen2 ps (some p0) rfl hgt2

/-- Every text of the shape `pre ++ NNN年MM月DD日 ++ post` — three year
digits not preceded by a digit, month and day in one or two digits — makes
the pattern 1 scan emit the `(NNN, month, day)` group triple (the pattern has
no lookbehind and `post` is unconstrained). -/
theorem scanRocFullFrom_contains
    (nds mds dds post : List Char)
    (hndig : ∀ c ∈ nds, c.isDigit = true) (hnlen : nds.length = 3)
    (hmdig : ∀ c ∈ mds, c.isDigit = true) (hmlen : 1 ≤ mds.length ∧ mds.length ≤ 2)
    (hddig : ∀ c ∈ dds, c.isDigit = true) (hdlen : 1 ≤ dds.length ∧ dds.length ≤ 2) :
    ∀ (pre : List Char) (prev : Option Char),
      (digitsVal nds, digitsVal mds, digitsVal dds) ∈
        scanRocFullFrom (pre ++ (nds ++ '年' :: (mds ++ '月' :: (dds ++ '日' :: post)))) prev := by
  have hrestnd : headNotDigit ('年' :: (mds ++ '月' :: (dds ++ '日' :: post))) :=
    headNotDigit_cons rfl
  have hnne : nds ≠ [] := by
    intro hn
    rw [hn] at hnlen
    simp at hnlen
  obtain ⟨n0, nrest, hn0⟩ := List.exists_cons_of_ne_nil hnne
  have hT : nds ++ '年' :: (mds ++ '月' :: (dds ++ '日' :: post)) =
      n0 :: (nrest ++ '年' :: (mds ++ '月' :: (dds ++ '日' :: post))) := by
    rw [hn0]
    rfl
  suffices H : ∀ n (pre : List Char) (prev : Option Char), pre.length = n →
      (digitsVal nds, digitsVal mds, digitsVal dds) ∈
        scanRocFullFrom (pre ++ (nds ++ '年' :: (mds ++ '月' :: (dds ++ '日' :: post)))) prev by
    intro pre prev
    exact H pre.length pre prev rfl
  intro n
  induction n using Nat.strong_induction_on with
  | _ n IH =>
    intro pre prev hlen
    cases pre with
    | nil =>
      rw [List.nil_append, hT, scanRocFullFrom_cons, ← hT,
        tryRocFull_at_target hndig ⟨by omega, by omega⟩ hmdig hmlen hddig hdlen post]
      exact List.mem_cons_self _ _
    | cons p0 ps =>
      have hlen2 : ps.length < n := by
        rw [← hlen]
        simp
      rw [List.cons_append, scanRocFullFrom_cons]
      cases htry : tryRocFull (p0 :: (ps ++ (nds ++ '年' :: (mds ++ '月' :: (dds ++ '日' :: post))))) with
      | none =>
        dsimp only
        exact IH ps.length hlen2 ps (some p0) rfl
      | some t =>
        obtain ⟨g2, lc2, out2⟩ := t
        dsimp only
        have hstr := tryRocFull_straddle (p0 :: ps) (by simp) hndig hnlen hrestnd
          (by rw [List.cons_append]; exact htry)
        obtain ⟨a2, hout2, hlt⟩ := hstr
        rw [hout2]
        apply List.mem_cons_of_mem
        exact IH a2.length (by
          rw [← hlen]
          calc a2.length < (p0 :: ps).length := hlt
            _ = ps.length + 1 := by simp) a2 (some lc2) rfl

/-- Counterexample to claim C5 as stated: the text consisting of the ISO
dash-notation date `2026-02-11` (year inside 2020–2030, constructible
month/day) yields no candidate at all from the DB-ingestion extractor — in
particular no candidate with that year, month and day. -/
theorem c5_counterexample :
    extractCandidates dashIsoExample none 2026 = [] ∧
    ¬ ((⟨2026, 2, 11⟩ : Date) ∈ extractCandidates dashIsoExample none 2026) := by
  refine ⟨by decide, ?_⟩
  intro hmem
  rw [show extractCandidates dashIsoExample none 2026 = [] from by decide] at hmem
  simp at hmem

/-- Claim C5 (amended): for every input text containing an ISO-notation date
in the slash form `YYYY/MM/DD` (four year digits, year in 2020–2030,
constructible month/day, no digit adjacent on either side), the DB-ingestion
extractor emits a candidate with exactly that year, month and day.  The dash
form `YYYY-MM-DD` is not recognised by this extractor (only by the markdown
converter's): a text consisting of exactly such a date yields no candidate. -/
theorem c5_iso_extraction (pre post yds mds dds : List Char)
    (publish : Option DateTime) (nowYear : Nat) (y m d : Nat) (dt : Date)
    (hydig : ∀ c ∈ yds, c.isDigit = true) (hylen : yds.length = 4)
    (hyval : digitsVal yds = y) (hylo : 2020 ≤ y) (hyhi : y ≤ 2030)
    (hmdig : ∀ c ∈ mds, c.isDigit = true)
    (hmlen : 1 ≤ mds.length ∧ mds.length ≤ 2) (hmval : digitsVal mds = m)
    (hddig : ∀ c ∈ dds, c.isDigit = true)
    (hdlen : 1 ≤ dds.length ∧ dds.length ≤ 2) (hdval : digitsVal dds = d)
    (hpre : goodTail pre none) (hpost : headNotDigit post)
    (hmk : mkValidDate y m d = some dt) :
    dt ∈ extractCandidates
      (pre ++ (yds ++ '/' :: (mds ++ '/' :: (dds ++ post)))) publish nowYear ∧
    extractCandidates dashIsoExample publish nowYear = [] := by
  refine ⟨?_, ?_⟩
  · have hytake : yds.take 2 = ['2', '0'] :=
      yds_take_of_band hylen hydig (by omega) (by omega)
    have hmem : (y, m, d) ∈
        scanIsoSlash (pre ++ (yds ++ '/' :: (mds ++ '/' :: (dds ++ post)))) := by
      rw [← hyval, ← hmval, ← hdval]
      exact scanIsoSlashFrom_contains yds mds dds post hydig hylen hytake
        hmdig hmlen hddig hdlen hpost pre none hpre
    obtain ⟨-, -, hm1, hm12, hd1, hdmax⟩ := mkValidDate_some hmk
    have hcand : candIso (y, m, d) = some dt := by
      unfold candIso
      rw [if_pos ⟨hylo, hyhi, hm1, hm12, hd1,
        le_trans hdmax (daysInMonth_le_31 _ _)⟩]
      exact hmk
    have hfm : dt ∈ (scanIsoSlash
        (pre ++ (yds ++ '/' :: (mds ++ '/' :: (dds ++ post))))).filterMap candIso :=
      List.mem_filterMap.mpr ⟨(y, m, d), hmem, hcand⟩
    unfold extractCandidates
    dsimp only
    simp only [List.mem_append]
    exact Or.inl (Or.inl (Or.inr hfm))
  · unfold extractCandidates
    dsimp only
    rw [show scanRocFull dashIsoExample = [] from by decide,
      show scanRocSlash dashIsoExample = [] from by decide,
      show scanIsoSlash dashIsoExample = [] from by decide,
      show scanBareMD dashIsoExample = [] from by decide,
      show scanMDWeek dashIsoExample = [] from by decide]
    rfl

theorem c5_iso_extraction_witness :
    (⟨2026, 1, 27⟩ : Date) ∈ extractCandidates
      (c5wPre ++ (['2', '0', '2', '6'] ++ '/' :: (['0', '1'] ++ '/' :: (['2', '7'] ++ []))))
      none 2026 ∧
    extractCandidates dashIsoExample none 2026 = [] :=
  c5_iso_extraction c5wPre [] ['2', '0', '2', '6'] ['0', '1'] ['2', '7'] none 2026
    2026 1 27 ⟨2026, 1, 27⟩ (by decide) (by decide) (by decide) (by decide)
    (by decide) (by decide) (by decide) (by decide) (by decide) (by decide)
    (by decide) rfl (by intro c hc; exact absurd hc (by simp)) (by decide)

/-- Counterexample to claim C6 as stated: the text consisting of the ROC-full
date `208年1月1日` (valid month and day) yields no candidate at all — the
resolved year 208 + 1911 = 2119 falls outside the guard `2020..2030`, so in
particular no candidate with year `NNN + 1911` is emitted. -/
theorem c6_counterexample :
    extractCandidates rocOutOfBandExample none 2026 = [] ∧
    ¬ ((⟨2119, 1, 1⟩ : Date) ∈ extractCandidates rocOutOfBandExample none 2026) := by
  refine ⟨by decide, ?_⟩
  intro hmem
  rw [show extractCandidates rocOutOfBandExample none 2026 = [] from by decide] at hmem
  simp at hmem

/-- Claim C6 (amended): for every text containing a ROC-full date
`NNN年MM月DD日` (three year digits not preceded by a digit, constructible
month/day) whose resolved year `NNN + 1911` lies in the guard band
2020–2030, the extractor emits a candidate whose year equals `NNN + 1911`;
outside that band the ROC-full match is discarded and no candidate results
from it (e.g. `208年1月1日` yields none). -/
theorem c6_roc_full_extraction (pre post nds mds dds : List Char)
    (publish : Option DateTime) (nowYear : Nat) (nnn m d : Nat) (dt : Date)
    (hndig : ∀ c ∈ nds, c.isDigit = true) (hnlen : nds.length = 3)
    (hnval : digitsVal nds = nnn)
    (hlo : 2020 ≤ nnn + 1911) (hhi : nnn + 1911 ≤ 2030)
    (hmdig : ∀ c ∈ mds, c.isDigit = true)
    (hmlen : 1 ≤ mds.length ∧ mds.length ≤ 2) (hmval : digitsVal mds = m)
    (hddig : ∀ c ∈ dds, c.isDigit = true)
    (hdlen : 1 ≤ dds.length ∧ dds.length ≤ 2) (hdval : digitsVal dds = d)
    (hmk : mkValidDate (nnn + 1911) m d = some dt) :
    (dt ∈ extractCandidates
      (pre ++ (nds ++ '年' :: (mds ++ '月' :: (dds ++ '日' :: post)))) publish nowYear ∧
      dt.year = nnn + 1911) ∧
    extractCandidates rocOutOfBandExample publish nowYear = [] := by
  refine ⟨⟨?_, ?_⟩, ?_⟩
  · have hmem : (nnn, m, d) ∈ scanRocFull
        (pre ++ (nds ++ '年' :: (mds ++ '月' :: (dds ++ '日' :: post)))) := by
      rw [← hnval, ← hmval, ← hdval]
      exact scanRocFullFrom_contains nds mds dds post hndig hnlen
        hmdig hmlen hddig hdlen pre none
    obtain ⟨-, -, hm1, hm12, hd1, hdmax⟩ := mkValidDate_some hmk
    have hcand : candRocFull (nnn, m, d) = some dt := by
      unfold candRocFull
      rw [if_pos ⟨hlo, hhi, hm1, hm12, hd1,
        le_trans hdmax (daysInMonth_le_31 _ _)⟩]
      exact hmk
    have hfm : dt ∈ (scanRocFull
        (pre ++ (nds ++ '年' :: (mds ++ '月' :: (dds ++ '日' :: post))))).filterMap
          candRocFull :=
      List.mem_filterMap.mpr ⟨(nnn, m, d), hmem, hcand⟩
    unfold extractCandidates
    dsimp only
    simp only [List.mem_append]
    exact Or.inl (Or.inl (Or.inl (Or.inl hfm)))
  · exact (mkValidDate_some hmk).1 ▸ rfl
  · unfold extractCandidates
    dsimp only
    rw [show scanRocFull rocOutOfBandExample = [(208, 1, 1)] from by decide,
      show scanRocSlash rocOutOfBandExample = [] from by decide,
      show scanIsoSlash rocOutOfBandExample = [] from by decide,
      show scanBareMD rocOutOfBandExample = [] from by decide,
      show scanMDWeek rocOutOfBandExample = [] from by decide]
    rfl

theorem c6_roc_full_extraction_witness :
    ((⟨2026, 1, 27⟩ : Date) ∈ extractCandidates
      ([] ++ (['1', '1', '5'] ++ '年' :: (['1'] ++ '月' :: (['2', '7'] ++ '日' :: []))))
      none 2026 ∧
      (⟨2026, 1, 27⟩ : Date).year = 115 + 1911) ∧
    extractCandidates rocOutOfBandExample none 2026 = [] :=
  c6_roc_full_extraction [] [] ['1', '1', '5'] ['1'] ['2', '7'] none 2026
    115 1 27 ⟨2026, 1, 27⟩ (by decide) (by decide) (by decide) (by decide)
    (by decide) (by decide) (by decide) (by decide) (by decide) (by decide)
    (by decide) (by decide)

theorem c9_extractor_safety_witness :
    extract_event_date [] (some exPub) 2026 = none ∧
    (∀ dt ∈ extractCandidates exBareContent (some exPub) 2026,
      mkValidDate dt.year dt.month dt.day = some dt) ∧
    (extract_event_date exBareContent (some exPub) 2026 = none ↔
      extractCandidates exBareContent (some exPub) 2026 = []) :=
  c9_extractor_safety exBareContent (some exPub) 2026
